import Mathlib

/-!
Verification development for the sysctl hierarchical key-space walker
(`src/crates/sysctl/src/sys/linux.rs`).

The store (the pseudo-filesystem under `/proc/sys`) is modelled as a finite
tree of entries: interior containers (directories), leaves (regular files
with a byte payload), and a third unsupported entry kind (symlinks etc.).
Strings are modelled as lists of characters; paths as lists of components.

Modelled operations, each translated from the Rust source:
  - `fromStr`      : `<Mib as FromStr>::from_str`
  - `Mib.name`     : `Mib::name`
  - `valueTr`      : `Mib::value` (result plus the list of paths read)
  - `setValue`     : `Mib::set_value` (explicit state passing for the write)
  - `MibIter.new`  / `seek` : `MibIter::new` and its inner `seek`
  - `next`         : `<MibIter as Iterator>::next`
IO failures other than "entry does not exist" (permissions, races) are not
modelled; the store is a fixed value.  The `unimplemented!()` panics of the
source are modelled as a distinct outcome (`none` / `StepResult.panicked`),
separate from returned error values.
-/

/-- Characters of a Rust `String` / `str`. -/
abbrev Str := List Char

/-- A filesystem path, as its list of components (no leading separator). -/
abbrev FsPath := List Str

/-- One position of the hierarchical store: a container with an ordered
children listing (the store's native listing order), a leaf with a byte
payload, or an entry of unsupported type (e.g. a symlink). -/
inductive Entry where
  | dir (children : List (Str × Entry))
  | file (payload : Str)
  | other

mutual

/-- Boolean equality on entries (the derive handler does not support this
nested inductive, so the instance is spelled out). -/
def beqEntry : Entry → Entry → Bool
  | Entry.dir cs, Entry.dir ds => beqChildren cs ds
  | Entry.file v, Entry.file w => v = w
  | Entry.other, Entry.other => true
  | _, _ => false

/-- Boolean equality on children listings. -/
def beqChildren : List (Str × Entry) → List (Str × Entry) → Bool
  | [], [] => true
  | (n, e) :: cs, (m, f) :: ds => n = m && beqEntry e f && beqChildren cs ds
  | _, _ => false

end

mutual

theorem beqEntry_iff : ∀ a b, beqEntry a b = true ↔ a = b
  | Entry.dir cs, Entry.dir ds => by
    simp only [beqEntry, beqChildren_iff cs ds, Entry.dir.injEq]
  | Entry.dir _, Entry.file _ => by simp [beqEntry]
  | Entry.dir _, Entry.other => by simp [beqEntry]
  | Entry.file _, Entry.dir _ => by simp [beqEntry]
  | Entry.file v, Entry.file w => by simp [beqEntry]
  | Entry.file _, Entry.other => by simp [beqEntry]
  | Entry.other, Entry.dir _ => by simp [beqEntry]
  | Entry.other, Entry.file _ => by simp [beqEntry]
  | Entry.other, Entry.other => by simp [beqEntry]

theorem beqChildren_iff : ∀ cs ds, beqChildren cs ds = true ↔ cs = ds
  | [], [] => by simp [beqChildren]
  | [], _ :: _ => by simp [beqChildren]
  | _ :: _, [] => by simp [beqChildren]
  | (n, e) :: cs, (m, f) :: ds => by
    simp [beqChildren, beqEntry_iff e f, beqChildren_iff cs ds, and_assoc]

end

instance : DecidableEq Entry :=
  fun a b => decidable_of_iff _ (beqEntry_iff a b)

/-- Error values (`std::io::Error`): the kind, plus the message for the
`Other` kind used by `Mib::value`. -/
inductive Err where
  | notFound
  | otherMsg (msg : Str)
  | isDirectory
deriving DecidableEq

instance {ε α : Type} [DecidableEq ε] [DecidableEq α] : DecidableEq (Except ε α) :=
  fun x y =>
    match x, y with
    | Except.ok a, Except.ok b => decidable_of_iff (a = b) (by simp)
    | Except.ok _, Except.error _ => isFalse (by simp)
    | Except.error _, Except.ok _ => isFalse (by simp)
    | Except.error e, Except.error f => decidable_of_iff (e = f) (by simp)

/-- The string `PATH_PREFIX = "/proc/sys"`. -/
def prefixStr : Str := ("/proc/sys").toList

/-- `PATH_PREFIX` as path components. -/
def prefixComps : FsPath := [("proc").toList, ("sys").toList]

/-- Message of the error returned by `Mib::value` on a non-file. -/
def containerReadMsg : Str := ("Can not get value from a Node.").toList

/-- Boolean test that `pre` is a leading segment of `s`
(Rust `str::starts_with` on strings, `Path::starts_with` on paths). -/
def leadSeg {α : Type} [DecidableEq α] : List α → List α → Bool
  | [], _ => true
  | _ :: _, [] => false
  | a :: as, b :: bs => a = b && leadSeg as bs

/-- Rust `str::ends_with`. -/
def trailSeg {α : Type} [DecidableEq α] (suf s : List α) : Bool :=
  leadSeg suf.reverse s.reverse

/-- Rust `str::replace` with a one-character pattern and replacement. -/
def replaceChar (a b : Char) (s : Str) : Str :=
  s.map (fun c => if c = a then b else c)

/-- Split on a separator character, keeping empty pieces
(the pieces of a path string between `/` characters). -/
def splitSep (sep : Char) : Str → List Str
  | [] => [[]]
  | c :: s =>
    if c = sep then [] :: splitSep sep s
    else
      match splitSep sep s with
      | [] => [[c]]
      | p :: ps => (c :: p) :: ps

/-- Join pieces with a separator character (inverse of `splitSep`). -/
def joinSep (sep : Char) : List Str → Str
  | [] => []
  | [c] => c
  | c :: cs => c ++ sep :: joinSep sep cs

/-- Rust `Path::join` of an absolute base with a possibly-absolute
right-hand side: an absolute right side replaces the base. -/
def joinPath (base rel : Str) : Str :=
  if rel.head? = some '/' then rel else base ++ '/' :: rel

/-- First child with the given name in a listing (names are unique in a
well-formed store, so this is the store's child lookup). -/
def findChild : List (Str × Entry) → Str → Option Entry
  | [], _ => none
  | c :: rest, n => if c.1 = n then some c.2 else findChild rest n

/-- Resolve a component path against the filesystem tree rooted at the
first argument. -/
def lookupFs : Entry → FsPath → Option Entry
  | fs, [] => some fs
  | Entry.dir cs, c :: p =>
    match findChild cs c with
    | some e => lookupFs e p
    | none => none
  | Entry.file _, _ :: _ => none
  | Entry.other, _ :: _ => none

/-- One step of path normalization: drop empty pieces and `.`, resolve
`..` (at the root, `..` stays at the root). -/
def normStep (acc : List Str) (c : Str) : List Str :=
  if c = ([] : Str) then acc
  else if c = ['.'] then acc
  else if c = ['.', '.'] then acc.dropLast
  else acc ++ [c]

/-- Normalize path pieces, as `Path::canonicalize` does for a store
without symbolic links. -/
def normComps (cs : List Str) : List Str :=
  cs.foldl normStep []

/-- Model of `Path::canonicalize` for the filesystem tree `fs`: normalize
the absolute path string and require that the result exists.  All call
sites in `from_str` pass absolute strings, so the relative case only
reports failure. -/
def canonicalize (fs : Entry) (s : Str) : Except Err FsPath :=
  if s.head? = some '/' then
    match lookupFs fs (normComps (splitSep '/' s)) with
    | some _ => Except.ok (normComps (splitSep '/' s))
    | none => Except.error Err.notFound
  else Except.error Err.notFound

/-- Model of `<Mib as FromStr>::from_str`: an input starting with
`PATH_PREFIX` is used verbatim unless it also ends with `PATH_PREFIX`
(rejected with `NotFound`); any other input has every `.` replaced by `/`
and is joined under the prefix; the chosen path string is canonicalized.
The source's `debug_assert!` statements are compiled out in release builds
and are not part of the returned value. -/
def fromStr (fs : Entry) (s : Str) : Except Err FsPath :=
  if leadSeg prefixStr s then
    if trailSeg prefixStr s then Except.error Err.notFound
    else canonicalize fs s
  else canonicalize fs (joinPath prefixStr (replaceChar '.' '/' s))

/-- The string of an absolute path (`PathBuf::to_string_lossy`: paths are
valid UTF-8 in the model). -/
def renderPath (p : FsPath) : Str := '/' :: joinSep '/' p

/-- The item the iterator produces for the file at path `p`: the source
yields `Some(Mib::from_str(&s))` for the rendered path string `s`, so the
item is `Ok` or `Err` as `from_str` decides against the ambient
filesystem `fs`. -/
def itemOf (fs : Entry) (p : FsPath) : Except Err FsPath :=
  fromStr fs (renderPath p)

/-- Model of `Mib::name`: strip the `PATH_PREFIX` components (error
`NotFound` when the path is not under the prefix) and rewrite path
separators to dots.  Paths are lists of characters here, so the UTF-8
check of the source never fails in the model. -/
def Mib.name (p : FsPath) : Except Err Str :=
  if leadSeg prefixComps p then
    Except.ok (replaceChar '/' '.' (joinSep '/' (p.drop prefixComps.length)))
  else Except.error Err.notFound

/-- Model of `Mib::value`, with the list of paths whose payload was read as
a trace: a path that is not a regular file is rejected before any open or
read happens; a file's whole payload is returned. -/
def valueTr (fs : Entry) (p : FsPath) : Except Err Str × List FsPath :=
  match lookupFs fs p with
  | some (Entry.file v) => (Except.ok v, [p])
  | _ => (Except.error (Err.otherMsg containerReadMsg), [])

/-- Result part of `Mib::value`. -/
def Mib.value (fs : Entry) (p : FsPath) : Except Err Str :=
  (valueTr fs p).1

/-- Replace the payload of the file at `p` (the effect of opening the leaf
for writing and writing the full payload); any other position is left
unchanged. -/
def updateFs : Entry → FsPath → Str → Entry
  | Entry.file _, [], v => Entry.file v
  | Entry.dir cs, [], _ => Entry.dir cs
  | Entry.other, [], _ => Entry.other
  | Entry.dir cs, c :: rest, v =>
    Entry.dir (cs.map (fun ne => if ne.1 = c then (ne.1, updateFs ne.2 rest v) else ne))
  | Entry.file w, _ :: _, _ => Entry.file w
  | Entry.other, _ :: _, _ => Entry.other

/-- Model of `Mib::set_value`: open for writing (fails with the open error
on a directory or a missing entry), write the whole payload, then re-read
with `Mib::value` and return the observed value together with the store
after the write. -/
def setValue (fs : Entry) (p : FsPath) (v : Str) : Except Err (Str × Entry) :=
  match lookupFs fs p with
  | some (Entry.file _) =>
    (Mib.value (updateFs fs p v) p).map (fun w => (w, updateFs fs p v))
  | some (Entry.dir _) => Except.error Err.isDirectory
  | _ => Except.error Err.notFound

example : fromStr (Entry.dir [(("proc").toList, Entry.dir [(("sys").toList,
    Entry.dir [(("kernel").toList, Entry.dir [(("ostype").toList,
    Entry.file ("Linux").toList)])])])]) (("kernel.ostype").toList)
    = Except.ok [("proc").toList, ("sys").toList, ("kernel").toList, ("ostype").toList] := by
  decide

/-- One open `ReadDir` listing of the walker: the not-yet-consumed entries,
each with its full path and its subtree. -/
abbrev Listing := List (FsPath × Entry)

/-- The walker's `dirs` stack of open listings.  The source keeps the stack
in a `Vec` with the top at index `len - 1`; here the top is the head. -/
abbrev Frontier := List Listing

/-- The listing `read_dir` produces for the container at `p` with children
`cs`: each entry carries its full path, in the store's native order. -/
def readDir (p : FsPath) (cs : List (Str × Entry)) : Listing :=
  cs.map (fun c => (p ++ [c.1], c.2))

/-- Children of an entry (empty for non-containers). -/
def childrenOf : Entry → List (Str × Entry)
  | Entry.dir cs => cs
  | _ => []

/-- Number of tree nodes below and including an entry, weighted so that
replacing a container by its children listing strictly shrinks the
termination measures below. -/
def entrySize : Entry → Nat
  | Entry.dir cs => 1 + (cs.attach.map (fun c => 1 + entrySize c.1.2)).sum
  | _ => 1
termination_by e => sizeOf e
decreasing_by
  obtain ⟨⟨n, f⟩, hmem⟩ := c
  have h := List.sizeOf_lt_of_mem hmem
  simp only [Prod.mk.sizeOf_spec] at h
  simp only [Entry.dir.sizeOf_spec]
  omega

theorem entrySize_dir (cs : List (Str × Entry)) :
    entrySize (Entry.dir cs) = 1 + (cs.map (fun c => 1 + entrySize c.2)).sum := by
  rw [entrySize]
  congr 1
  rw [← List.attach_map_coe cs (fun c => 1 + entrySize c.2)]

theorem entrySize_pos (e : Entry) : 0 < entrySize e := by
  cases e with
  | dir cs => rw [entrySize_dir]; omega
  | file v =>
    rw [entrySize]
    · omega
    · intro cs h
      cases h
  | other =>
    rw [entrySize]
    · omega
    · intro cs h
      cases h

/-- Combined size of the entries of a listing, ignoring the paths (used
only as a termination measure: pushing a child listing shrinks it). -/
def listingW (l : Listing) : Nat :=
  (l.map (fun pe => entrySize pe.2)).sum

/-- Termination measure for worklist recursion over one listing. -/
def listingMu (l : Listing) : Nat := listingW l + l.length

/-- Termination measure for recursion over a frontier. -/
def frontW (d : Frontier) : Nat := (d.map listingMu).sum + d.length

theorem listingW_nil : listingW [] = 0 := rfl

theorem listingW_cons (pe : FsPath × Entry) (l : Listing) :
    listingW (pe :: l) = entrySize pe.2 + listingW l := by
  simp [listingW]

theorem listingW_append (a b : Listing) :
    listingW (a ++ b) = listingW a + listingW b := by
  simp [listingW]

theorem sum_map_one_add (cs : List (Str × Entry)) :
    (cs.map (fun c => 1 + entrySize c.2)).sum
      = cs.length + (cs.map (fun c => entrySize c.2)).sum := by
  induction cs with
  | nil => simp
  | cons c rest ih => simp [ih]; omega

theorem listingW_readDir (p : FsPath) (cs : List (Str × Entry)) :
    listingW (readDir p cs) = (cs.map (fun c => entrySize c.2)).sum := by
  simp [listingW, readDir, List.map_map, Function.comp_def]

theorem readDir_length (p : FsPath) (cs : List (Str × Entry)) :
    (readDir p cs).length = cs.length := by
  simp [readDir]

theorem listingMu_readDir (p : FsPath) (cs : List (Str × Entry)) :
    listingMu (readDir p cs) < entrySize (Entry.dir cs) := by
  have h := sum_map_one_add cs
  simp only [listingMu, listingW_readDir, readDir_length, entrySize_dir]
  omega

theorem listingMu_append (a b : Listing) :
    listingMu (a ++ b) = listingMu a + listingMu b := by
  simp only [listingMu, listingW_append, List.length_append]
  omega

theorem listingMu_cons (pe : FsPath × Entry) (l : Listing) :
    listingMu (pe :: l) = entrySize pe.2 + 1 + listingMu l := by
  simp only [listingMu, listingW_cons, List.length_cons]
  omega

theorem frontW_nil : frontW [] = 0 := rfl

theorem frontW_cons (l : Listing) (d : Frontier) :
    frontW (l :: d) = listingMu l + 1 + frontW d := by
  simp only [frontW, List.map_cons, List.sum_cons, List.length_cons]
  omega

/-- All positions of the worklist `l` in depth-first pre-order: each entry,
followed by the positions of its subtree.  This is the reference
description of the traversal order. -/
def posAll : Listing → Listing
  | [] => []
  | (p, Entry.dir cs) :: rest => (p, Entry.dir cs) :: posAll (readDir p cs ++ rest)
  | (p, Entry.file v) :: rest => (p, Entry.file v) :: posAll rest
  | (p, Entry.other) :: rest => (p, Entry.other) :: posAll rest
termination_by l => listingMu l
decreasing_by
  · have h := listingMu_readDir p cs
    simp only [listingMu_append, listingMu_cons]
    omega
  · have h := entrySize_pos (Entry.file v)
    simp only [listingMu_cons]
    omega
  · have h := entrySize_pos Entry.other
    simp only [listingMu_cons]
    omega

/-- The leaf paths of the worklist `l` in depth-first pre-order: the
textbook recursive enumeration the walker is compared against. -/
def leavesAll : Listing → List FsPath
  | [] => []
  | (p, Entry.dir cs) :: rest => leavesAll (readDir p cs ++ rest)
  | (p, Entry.file v) :: rest => p :: leavesAll rest
  | (_, Entry.other) :: rest => leavesAll rest
termination_by l => listingMu l
decreasing_by
  · have h := listingMu_readDir p cs
    simp only [listingMu_append, listingMu_cons]
    omega
  · have h := entrySize_pos (Entry.file v)
    simp only [listingMu_cons]
    omega
  · have h := entrySize_pos Entry.other
    simp only [listingMu_cons]
    omega

/-- Model of the inner `seek` of `MibIter::new`.  `none` models the
`unimplemented!()` panic on an unsupported entry type; otherwise the
resulting frontier is returned.  The source scans the top listing,
descending into every container entry: a container is pushed *before* the
stop check, a matching leaf is the resume point, an exhausted listing is
popped, and an empty frontier ends the search silently. -/
def seek (dirs : Frontier) (stop : FsPath) : Option Frontier :=
  match dirs with
  | [] => some []
  | [] :: rest => seek rest stop
  | ((p, Entry.dir cs) :: l2) :: rest =>
    if p = stop then some (readDir p cs :: l2 :: rest)
    else seek (readDir p cs :: l2 :: rest) stop
  | ((p, Entry.file v) :: l2) :: rest =>
    if p = stop then some (l2 :: rest)
    else seek (l2 :: rest) stop
  | ((_, Entry.other) :: _) :: _ => none
termination_by frontW dirs
decreasing_by
  · simp only [frontW, List.map_cons, List.sum_cons, List.length_cons]
    simp [listingMu, listingW]
  · have h := listingMu_readDir p cs
    simp only [frontW, listingMu, listingW, List.map_cons, List.sum_cons,
      List.length_cons, Entry.dir.sizeOf_spec] at *
    omega
  · simp only [frontW, listingMu, listingW, List.map_cons, List.sum_cons,
      List.length_cons, Entry.file.sizeOf_spec]
    omega

/-- Outcome of one `<MibIter as Iterator>::next` call: an item (the
`Mib::from_str` result for a file entry, so itself `Ok` or `Err`), an
`Err` item from the iteration's own IO paths, exhaustion (`None`), or the
`unimplemented!()` panic.  Each constructor carries the frontier left
behind. -/
inductive StepResult where
  | yielded (m : Except Err FsPath) (s : Frontier)
  | failed (e : Err) (s : Frontier)
  | done (s : Frontier)
  | panicked
deriving DecidableEq

/-- Model of `<MibIter as Iterator>::next` over the ambient filesystem
`fs`: on an empty stack report exhaustion; pop an exhausted top listing
and retry; push a container's listing and recurse; for a file entry yield
`Some(Mib::from_str(&s))` of the rendered path — which can itself be an
`Err` item, e.g. for a path that also ends with `PATH_PREFIX`; panic on
an unsupported entry.  The `failed` outcome models the source's other
IO-error paths (`file_type`, `read_dir`, iteration errors), none of which
arise in the pure model. -/
def next (fs : Entry) : Frontier → StepResult
  | [] => StepResult.done []
  | [] :: rest => next fs rest
  | ((p, Entry.dir cs) :: l2) :: rest => next fs (readDir p cs :: l2 :: rest)
  | ((p, Entry.file _) :: l2) :: rest =>
    StepResult.yielded (itemOf fs p) (l2 :: rest)
  | ((_, Entry.other) :: _) :: _ => StepResult.panicked
termination_by d => frontW d
decreasing_by
  · simp only [frontW, List.map_cons, List.sum_cons, List.length_cons]
    simp [listingMu, listingW]
  · have h := listingMu_readDir p cs
    simp only [frontW, listingMu, listingW, List.map_cons, List.sum_cons,
      List.length_cons, Entry.dir.sizeOf_spec] at *
    omega

/-- All items produced by iterating `next` to exhaustion: `none` when the
iteration panics, otherwise the list of yielded items (each the
`Mib::from_str` result for one file entry) in order. -/
def runWalker (fs : Entry) : Frontier → Option (List (Except Err FsPath))
  | [] => some []
  | [] :: rest => runWalker fs rest
  | ((p, Entry.dir cs) :: l2) :: rest => runWalker fs (readDir p cs :: l2 :: rest)
  | ((p, Entry.file v) :: l2) :: rest =>
    (runWalker fs (l2 :: rest)).map (fun out => itemOf fs p :: out)
  | ((_, Entry.other) :: _) :: _ => none
termination_by d => frontW d
decreasing_by
  · simp only [frontW, List.map_cons, List.sum_cons, List.length_cons]
    simp [listingMu, listingW]
  · have h := listingMu_readDir p cs
    simp only [frontW, listingMu, listingW, List.map_cons, List.sum_cons,
      List.length_cons, Entry.dir.sizeOf_spec] at *
    omega
  · simp only [frontW, listingMu, listingW, List.map_cons, List.sum_cons,
      List.length_cons, Entry.file.sizeOf_spec]
    omega

/-- `runWalker` follows `next` step by step: it is exactly the iteration
of `next`, collecting yielded items until exhaustion. -/
theorem runWalker_next (fs : Entry) (d : Frontier) :
    runWalker fs d =
      match next fs d with
      | StepResult.yielded m s => (runWalker fs s).map (fun out => m :: out)
      | StepResult.failed _ _ => none
      | StepResult.done _ => some []
      | StepResult.panicked => none := by
  induction d using runWalker.induct fs with
  | case1 => simp [runWalker, next]
  | case2 rest ih => rw [runWalker, next, ih]
  | case3 p cs l2 rest ih => rw [runWalker, next, ih]
  | case4 p v l2 rest => rw [runWalker, next]
  | case5 p l2 rest => rw [runWalker, next]

/-- Model of `MibIter::new`: open the root listing of the store `S`
(the directory at `PATH_PREFIX`), then seek to the target path. -/
def MibIter.new (S : Entry) (t : FsPath) : Option Frontier :=
  seek [readDir prefixComps (childrenOf S)] t

/-- The whole item sequence of a walker seeded at `t` over the store `S`
inside the ambient filesystem `fs` (`none` when construction or iteration
panics). -/
def enumerate (fs S : Entry) (t : FsPath) : Option (List (Except Err FsPath)) :=
  (MibIter.new S t).bind (runWalker fs)

/-- The full depth-first leaf enumeration of the store, from the root. -/
def fullEnum (S : Entry) : List FsPath :=
  leavesAll (readDir prefixComps (childrenOf S))

/-- All positions of the store below the root, in traversal order. -/
def storePositions (S : Entry) : Listing :=
  posAll (readDir prefixComps (childrenOf S))

/-- Boolean no-duplicates check on a list of names. -/
def memB (x : Str) : List Str → Bool
  | [] => false
  | y :: ys => x = y || memB x ys

def nodupB : List Str → Bool
  | [] => true
  | x :: xs => !(memB x xs) && nodupB xs

/-- Names of a children listing. -/
def namesOf (cs : List (Str × Entry)) : List Str := cs.map Prod.fst

/-- Boolean membership of a character in a string. -/
def memC (x : Char) : Str → Bool
  | [] => false
  | y :: ys => x = y || memC x ys

/-- Validity of one directory-entry name, as every real filesystem
guarantees: nonempty, no path separator, and not the special names `.`
and `..`. -/
def nameOk (n : Str) : Bool :=
  !(decide (n = ([] : Str))) && !(memC '/' n)
    && !(decide (n = ['.'])) && !(decide (n = ['.', '.']))

/-- Per-position well-formedness: a container's children have distinct,
valid names (true of a real filesystem directory). -/
def entryOk : Entry → Bool
  | Entry.dir cs => nodupB (namesOf cs) && (namesOf cs).all nameOk
  | Entry.file _ => true
  | Entry.other => true

/-- The entry is not of the unsupported kind. -/
def notOther : Entry → Bool
  | Entry.dir _ => true
  | Entry.file _ => true
  | Entry.other => false

/-- Every position reachable from the worklist has distinct child names. -/
def wfListing (l : Listing) : Bool :=
  (posAll l).all (fun pe => entryOk pe.2)

/-- No position reachable from the worklist is of unsupported type. -/
def noOtherListing (l : Listing) : Bool :=
  (posAll l).all (fun pe => notOther pe.2)

/-- Store well-formedness: distinct sibling names everywhere. -/
def storeOk (S : Entry) : Bool :=
  entryOk S && wfListing (readDir prefixComps (childrenOf S))

/-- The store contains no entry of unsupported type. -/
def storeNoOther (S : Entry) : Bool :=
  noOtherListing (readDir prefixComps (childrenOf S))

/-- Projection of a position to its path when it is a leaf. -/
def leafProj : FsPath × Entry → Option FsPath
  | (p, Entry.file _) => some p
  | (_, Entry.dir _) => none
  | (_, Entry.other) => none


theorem posAll_append (a : Listing) :
    ∀ b, posAll (a ++ b) = posAll a ++ posAll b := by
  induction a using posAll.induct with
  | case1 =>
    intro b
    rw [List.nil_append, posAll, List.nil_append]
  | case2 p cs rest ih =>
    intro b
    rw [List.cons_append, posAll, posAll, ← List.append_assoc, ih, List.cons_append]
  | case3 p v rest ih =>
    intro b
    rw [List.cons_append, posAll, posAll, ih, List.cons_append]
  | case4 p rest ih =>
    intro b
    rw [List.cons_append, posAll, posAll, ih, List.cons_append]

theorem leavesAll_eq_posAll (l : Listing) :
    leavesAll l = (posAll l).filterMap leafProj := by
  induction l using posAll.induct with
  | case1 => rw [leavesAll, posAll, List.filterMap_nil]
  | case2 p cs rest ih =>
    rw [leavesAll, posAll, List.filterMap_cons, ih]
    rfl
  | case3 p v rest ih =>
    rw [leavesAll, posAll, List.filterMap_cons, ih]
    rfl
  | case4 p rest ih =>
    rw [leavesAll, posAll, List.filterMap_cons, ih]
    rfl

theorem leavesAll_append (a b : Listing) :
    leavesAll (a ++ b) = leavesAll a ++ leavesAll b := by
  rw [leavesAll_eq_posAll, leavesAll_eq_posAll, leavesAll_eq_posAll,
    posAll_append, List.filterMap_append]

theorem noOther_cons_dir (p : FsPath) (cs : List (Str × Entry)) (rest : Listing) :
    noOtherListing ((p, Entry.dir cs) :: rest)
      = noOtherListing (readDir p cs ++ rest) := by
  rw [noOtherListing, noOtherListing, posAll, List.all_cons]
  rfl

theorem noOther_cons_file (p : FsPath) (v : Str) (rest : Listing) :
    noOtherListing ((p, Entry.file v) :: rest) = noOtherListing rest := by
  rw [noOtherListing, noOtherListing, posAll, List.all_cons]
  rfl

theorem noOther_cons_other (p : FsPath) (rest : Listing) :
    noOtherListing ((p, Entry.other) :: rest) = false := by
  rw [noOtherListing, posAll, List.all_cons]
  rfl

theorem wf_cons_dir (p : FsPath) (cs : List (Str × Entry)) (rest : Listing) :
    wfListing ((p, Entry.dir cs) :: rest)
      = (entryOk (Entry.dir cs) && wfListing (readDir p cs ++ rest)) := by
  rw [wfListing, wfListing, posAll, List.all_cons]

theorem entryOk_dir {cs : List (Str × Entry)} (h : entryOk (Entry.dir cs) = true) :
    nodupB (namesOf cs) = true ∧ ((namesOf cs).all nameOk) = true := by
  rw [entryOk, Bool.and_eq_true] at h
  exact h

theorem wf_cons_file (p : FsPath) (v : Str) (rest : Listing) :
    wfListing ((p, Entry.file v) :: rest) = wfListing rest := by
  rw [wfListing, wfListing, posAll, List.all_cons]
  rfl

/-- The items of a walker whose frontier reaches no unsupported entry are
exactly the depth-first leaves of the remaining worklist, each yielded as
the `Mib::from_str` result for its path. -/
theorem runWalker_eq (fs : Entry) : ∀ d : Frontier, noOtherListing d.flatten = true →
    runWalker fs d = some ((leavesAll d.flatten).map (itemOf fs)) := by
  intro d
  induction d using runWalker.induct fs with
  | case1 =>
    intro _
    rw [runWalker, List.flatten_nil, leavesAll, List.map_nil]
  | case2 rest ih =>
    intro hno
    rw [List.flatten_cons, List.nil_append] at hno ⊢
    rw [runWalker]
    exact ih hno
  | case3 p cs l2 rest ih =>
    intro hno
    rw [List.flatten_cons, List.cons_append] at hno ⊢
    rw [noOther_cons_dir] at hno
    have ihx := ih (by rw [List.flatten_cons, List.flatten_cons]; exact hno)
    rw [List.flatten_cons, List.flatten_cons] at ihx
    rw [runWalker, leavesAll]
    exact ihx
  | case4 p v l2 rest ih =>
    intro hno
    rw [List.flatten_cons, List.cons_append] at hno ⊢
    rw [noOther_cons_file] at hno
    have ihx := ih (by rw [List.flatten_cons]; exact hno)
    rw [List.flatten_cons] at ihx
    rw [runWalker, leavesAll, ihx, List.map_cons]
    rfl
  | case5 p l2 rest =>
    intro hno
    rw [List.flatten_cons, List.cons_append, noOther_cons_other] at hno
    cases hno

/-- A seek whose target path occurs nowhere in the remaining traversal
consumes everything and ends with an empty frontier (the silent
"not found" outcome of the source). -/
theorem seek_missing : ∀ (dirs : Frontier) (stop : FsPath),
    noOtherListing dirs.flatten = true →
    (∀ pe ∈ posAll dirs.flatten, pe.1 ≠ stop) →
    seek dirs stop = some [] := by
  intro dirs stop
  induction dirs, stop using seek.induct with
  | case1 stop =>
    intro _ _
    rw [seek]
  | case2 stop rest ih =>
    intro hno hmiss
    rw [List.flatten_cons, List.nil_append] at hno hmiss
    rw [seek]
    exact ih hno hmiss
  | case3 p cs l2 rest =>
    intro hno hmiss
    exfalso
    refine hmiss (p, Entry.dir cs) ?_ rfl
    rw [List.flatten_cons, List.cons_append, posAll]
    exact List.mem_cons_self _ _
  | case4 stop p cs l2 rest hne ih =>
    intro hno hmiss
    rw [List.flatten_cons, List.cons_append] at hno hmiss
    rw [noOther_cons_dir] at hno
    rw [posAll] at hmiss
    rw [seek, if_neg hne]
    refine ih ?_ ?_
    · rw [List.flatten_cons, List.flatten_cons]
      exact hno
    · intro pe hpe
      refine hmiss pe ?_
      rw [List.flatten_cons, List.flatten_cons] at hpe
      exact List.mem_cons_of_mem _ hpe
  | case5 p v l2 rest =>
    intro hno hmiss
    exfalso
    refine hmiss (p, Entry.file v) ?_ rfl
    rw [List.flatten_cons, List.cons_append, posAll]
    exact List.mem_cons_self _ _
  | case6 stop p v l2 rest hne ih =>
    intro hno hmiss
    rw [List.flatten_cons, List.cons_append] at hno hmiss
    rw [noOther_cons_file] at hno
    rw [posAll] at hmiss
    rw [seek, if_neg hne]
    refine ih ?_ ?_
    · rw [List.flatten_cons]
      exact hno
    · intro pe hpe
      refine hmiss pe ?_
      rw [List.flatten_cons] at hpe
      exact List.mem_cons_of_mem _ hpe
  | case7 stop p l2 rest =>
    intro hno hmiss
    rw [List.flatten_cons, List.cons_append, noOther_cons_other] at hno
    cases hno

/-- Core seek correctness: when the target occurs in the remaining
traversal, the seek succeeds and leaves a frontier whose remaining
positions are exactly the positions after the target in pre-order; for a
container target the frontier starts with the container's own fresh
listing (the container was pushed before the stop check). -/
theorem seek_found : ∀ (dirs : Frontier) (stop : FsPath),
    noOtherListing dirs.flatten = true →
    ∀ P1 e P2, posAll dirs.flatten = P1 ++ (stop, e) :: P2 →
    (∀ pe ∈ P1, pe.1 ≠ stop) →
    ∃ F, seek dirs stop = some F
      ∧ noOtherListing F.flatten = true
      ∧ posAll F.flatten = P2
      ∧ ∀ cs, e = Entry.dir cs → ∃ M, F.flatten = readDir stop cs ++ M := by
  intro dirs stop
  induction dirs, stop using seek.induct with
  | case1 stop =>
    intro _ P1 e P2 hsplit _
    rw [List.flatten_nil, posAll] at hsplit
    exact absurd hsplit.symm (List.append_ne_nil_of_right_ne_nil _ (by simp))
  | case2 stop rest ih =>
    intro hno P1 e P2 hsplit hfirst
    rw [List.flatten_cons, List.nil_append] at hno hsplit
    obtain ⟨F, h1, h2, h3, h4⟩ := ih hno P1 e P2 hsplit hfirst
    exact ⟨F, by rw [seek]; exact h1, h2, h3, h4⟩
  | case3 p cs l2 rest =>
    intro hno P1 e P2 hsplit hfirst
    rw [List.flatten_cons, List.cons_append, posAll] at hsplit
    rw [List.flatten_cons, List.cons_append, noOther_cons_dir] at hno
    cases P1 with
    | cons x P1x =>
      exfalso
      rw [List.cons_append] at hsplit
      have hx := (List.cons.injEq _ _ _ _).mp hsplit
      exact hfirst x (List.mem_cons_self _ _) (by rw [← hx.1])
    | nil =>
      rw [List.nil_append] at hsplit
      have hx := (List.cons.injEq _ _ _ _).mp hsplit
      have he : e = Entry.dir cs := by
        have h5 := hx.1
        rw [Prod.mk.injEq] at h5
        exact h5.2.symm
      refine ⟨readDir p cs :: l2 :: rest, ?_, ?_, ?_, ?_⟩
      · rw [seek, if_pos rfl]
      · rw [List.flatten_cons, List.flatten_cons]
        exact hno
      · rw [List.flatten_cons, List.flatten_cons, ← hx.2]
      · intro cs2 hcs2
        rw [he, Entry.dir.injEq] at hcs2
        refine ⟨l2 ++ rest.flatten, ?_⟩
        rw [← hcs2, List.flatten_cons, List.flatten_cons]
  | case4 stop p cs l2 rest hne ih =>
    intro hno P1 e P2 hsplit hfirst
    rw [List.flatten_cons, List.cons_append] at hno hsplit
    rw [noOther_cons_dir] at hno
    rw [posAll] at hsplit
    cases P1 with
    | nil =>
      exfalso
      rw [List.nil_append] at hsplit
      have hx := (List.cons.injEq _ _ _ _).mp hsplit
      have h5 := hx.1
      rw [Prod.mk.injEq] at h5
      exact hne h5.1
    | cons x P1x =>
      rw [List.cons_append] at hsplit
      have hx := (List.cons.injEq _ _ _ _).mp hsplit
      have hno2 : noOtherListing (readDir p cs :: l2 :: rest).flatten = true := by
        rw [List.flatten_cons, List.flatten_cons]
        exact hno
      obtain ⟨F, h1, h2, h3, h4⟩ := ih hno2 P1x e P2
        (by rw [List.flatten_cons, List.flatten_cons]; exact hx.2)
        (fun pe hpe => hfirst pe (List.mem_cons_of_mem _ hpe))
      exact ⟨F, by rw [seek, if_neg hne]; exact h1, h2, h3, h4⟩
  | case5 p v l2 rest =>
    intro hno P1 e P2 hsplit hfirst
    rw [List.flatten_cons, List.cons_append, posAll] at hsplit
    rw [List.flatten_cons, List.cons_append, noOther_cons_file] at hno
    cases P1 with
    | cons x P1x =>
      exfalso
      rw [List.cons_append] at hsplit
      have hx := (List.cons.injEq _ _ _ _).mp hsplit
      exact hfirst x (List.mem_cons_self _ _) (by rw [← hx.1])
    | nil =>
      rw [List.nil_append] at hsplit
      have hx := (List.cons.injEq _ _ _ _).mp hsplit
      have he : e = Entry.file v := by
        have h5 := hx.1
        rw [Prod.mk.injEq] at h5
        exact h5.2.symm
      refine ⟨l2 :: rest, ?_, ?_, ?_, ?_⟩
      · rw [seek, if_pos rfl]
      · rw [List.flatten_cons]
        exact hno
      · rw [List.flatten_cons, ← hx.2]
      · intro cs2 hcs2
        rw [he] at hcs2
        cases hcs2
  | case6 stop p v l2 rest hne ih =>
    intro hno P1 e P2 hsplit hfirst
    rw [List.flatten_cons, List.cons_append] at hno hsplit
    rw [noOther_cons_file] at hno
    rw [posAll] at hsplit
    cases P1 with
    | nil =>
      exfalso
      rw [List.nil_append] at hsplit
      have hx := (List.cons.injEq _ _ _ _).mp hsplit
      have h5 := hx.1
      rw [Prod.mk.injEq] at h5
      exact hne h5.1
    | cons x P1x =>
      rw [List.cons_append] at hsplit
      have hx := (List.cons.injEq _ _ _ _).mp hsplit
      have hno2 : noOtherListing (l2 :: rest).flatten = true := by
        rw [List.flatten_cons]
        exact hno
      obtain ⟨F, h1, h2, h3, h4⟩ := ih hno2 P1x e P2
        (by rw [List.flatten_cons]; exact hx.2)
        (fun pe hpe => hfirst pe (List.mem_cons_of_mem _ hpe))
      exact ⟨F, by rw [seek, if_neg hne]; exact h1, h2, h3, h4⟩
  | case7 stop p l2 rest =>
    intro hno P1 e P2 hsplit hfirst
    rw [List.flatten_cons, List.cons_append, noOther_cons_other] at hno
    cases hno

/-- Path `a` leads to path `b`: `b` lies in the subtree rooted at `a`. -/
def leadsTo (a b : FsPath) : Prop := ∃ t, b = a ++ t

theorem leadsTo_refl (a : FsPath) : leadsTo a a := ⟨[], by rw [List.append_nil]⟩

theorem leadsTo_append (a : FsPath) (t : List Str) : leadsTo a (a ++ t) := ⟨t, rfl⟩

theorem leadsTo_trans {a b c : FsPath} (h1 : leadsTo a b) (h2 : leadsTo b c) :
    leadsTo a c := by
  obtain ⟨t1, ht1⟩ := h1
  obtain ⟨t2, ht2⟩ := h2
  exact ⟨t1 ++ t2, by rw [ht2, ht1, List.append_assoc]⟩

theorem leadsTo_length {a b : FsPath} (h : leadsTo a b) : a.length ≤ b.length := by
  obtain ⟨t, ht⟩ := h
  rw [ht, List.length_append]
  omega

theorem leadsTo_of_append_singleton {a p : FsPath} {n : Str} {t : List Str}
    (h : a ++ t = p ++ [n]) (hne : t ≠ []) : leadsTo a p := by
  have hlen : a.length ≤ p.length := by
    have h1 : a.length + t.length = p.length + 1 := by
      have := congrArg List.length h
      simpa using this
    have h2 : 0 < t.length := List.length_pos.mpr hne
    omega
  have ha : a = (p ++ [n]).take a.length := by
    rw [← h, List.take_left]
  rw [List.take_append_of_le_length hlen] at ha
  refine ⟨p.drop a.length, ?_⟩
  conv_lhs => rw [← List.take_append_drop a.length p]
  rw [← ha]

/-- Two positions that are not in each other's subtree. -/
def sepPos (a b : FsPath × Entry) : Prop :=
  ¬ leadsTo a.1 b.1 ∧ ¬ leadsTo b.1 a.1

theorem readDir_mem {p : FsPath} {cs : List (Str × Entry)} {pe : FsPath × Entry}
    (h : pe ∈ readDir p cs) : ∃ c ∈ cs, pe = (p ++ [c.1], c.2) := by
  rw [readDir, List.mem_map] at h
  obtain ⟨c, hc, hpe⟩ := h
  exact ⟨c, hc, hpe.symm⟩

/-- Every position produced by the traversal lies in the subtree of one of
the worklist entries. -/
theorem pos_src : ∀ (l : Listing) (q : FsPath × Entry), q ∈ posAll l →
    ∃ pe ∈ l, leadsTo pe.1 q.1 := by
  intro l
  induction l using posAll.induct with
  | case1 =>
    intro q hq
    rw [posAll] at hq
    cases hq
  | case2 p cs rest ih =>
    intro q hq
    rw [posAll] at hq
    rcases List.mem_cons.mp hq with hq | hq
    · exact ⟨(p, Entry.dir cs), List.mem_cons_self _ _, by rw [hq]; exact leadsTo_refl p⟩
    · obtain ⟨pe, hpe, hlead⟩ := ih q hq
      rcases List.mem_append.mp hpe with hpe | hpe
      · obtain ⟨c, hc, hceq⟩ := readDir_mem hpe
        refine ⟨(p, Entry.dir cs), List.mem_cons_self _ _, ?_⟩
        refine leadsTo_trans (leadsTo_append p [c.1]) ?_
        rw [hceq] at hlead
        exact hlead
      · exact ⟨pe, List.mem_cons_of_mem _ hpe, hlead⟩
  | case3 p v rest ih =>
    intro q hq
    rw [posAll] at hq
    rcases List.mem_cons.mp hq with hq | hq
    · exact ⟨(p, Entry.file v), List.mem_cons_self _ _, by rw [hq]; exact leadsTo_refl p⟩
    · obtain ⟨pe, hpe, hlead⟩ := ih q hq
      exact ⟨pe, List.mem_cons_of_mem _ hpe, hlead⟩
  | case4 p rest ih =>
    intro q hq
    rw [posAll] at hq
    rcases List.mem_cons.mp hq with hq | hq
    · exact ⟨(p, Entry.other), List.mem_cons_self _ _, by rw [hq]; exact leadsTo_refl p⟩
    · obtain ⟨pe, hpe, hlead⟩ := ih q hq
      exact ⟨pe, List.mem_cons_of_mem _ hpe, hlead⟩

theorem memB_iff (x : Str) : ∀ L : List Str, memB x L = true ↔ x ∈ L
  | [] => by rw [memB]; simp
  | y :: ys => by
    rw [memB, Bool.or_eq_true, decide_eq_true_eq, memB_iff x ys, List.mem_cons]

theorem nodupB_pairwise : ∀ L : List Str, nodupB L = true →
    L.Pairwise (fun a b => a ≠ b)
  | [] => by
    intro _
    exact List.Pairwise.nil
  | x :: xs => by
    rw [nodupB, Bool.and_eq_true, Bool.not_eq_true']
    intro h
    refine List.Pairwise.cons ?_ (nodupB_pairwise xs h.2)
    intro y hy hxy
    have hmem := (memB_iff x xs).mpr (hxy ▸ hy)
    rw [h.1] at hmem
    cases hmem

theorem sib_not_leadsTo {p : FsPath} {n m : Str} (hne : n ≠ m) :
    ¬ leadsTo (p ++ [n]) (p ++ [m]) := by
  intro hl
  obtain ⟨t, ht⟩ := hl
  rw [List.append_assoc] at ht
  have h2 := List.append_cancel_left ht
  cases t with
  | nil =>
    rw [List.append_nil, List.cons.injEq] at h2
    exact hne h2.1.symm
  | cons hd tl =>
    rw [List.cons_append, List.cons.injEq] at h2
    exact List.cons_ne_nil hd tl h2.2.symm

theorem readDir_pairwise (p : FsPath) (cs : List (Str × Entry))
    (h : nodupB (namesOf cs) = true) : List.Pairwise sepPos (readDir p cs) := by
  have hp := nodupB_pairwise _ h
  rw [namesOf, List.pairwise_map] at hp
  rw [readDir, List.pairwise_map]
  refine hp.imp ?_
  intro a b hne
  exact ⟨sib_not_leadsTo hne, sib_not_leadsTo (Ne.symm hne)⟩

theorem wf_cons_other (p : FsPath) (rest : Listing) :
    wfListing ((p, Entry.other) :: rest) = wfListing rest := by
  rw [wfListing, wfListing, posAll, List.all_cons]
  rfl

/-- In a store with distinct sibling names, all traversal positions have
distinct paths. -/
theorem pos_nodup : ∀ l : Listing, wfListing l = true → List.Pairwise sepPos l →
    ((posAll l).map Prod.fst).Nodup := by
  intro l
  induction l using posAll.induct with
  | case1 =>
    intro _ _
    rw [posAll]
    exact List.Pairwise.nil
  | case2 p cs rest ih =>
    intro hwf hpw
    rw [wf_cons_dir, Bool.and_eq_true] at hwf
    have hpw2 : List.Pairwise sepPos (readDir p cs ++ rest) := by
      rw [List.pairwise_append]
      refine ⟨readDir_pairwise p cs (entryOk_dir hwf.1).1, (List.pairwise_cons.mp hpw).2, ?_⟩
      intro x hx y hy
      obtain ⟨c, hc, hxeq⟩ := readDir_mem hx
      have hsep := (List.pairwise_cons.mp hpw).1 y hy
      constructor
      · intro hl
        refine hsep.1 ?_
        refine leadsTo_trans (leadsTo_append p [c.1]) ?_
        rw [hxeq] at hl
        exact hl
      · intro hl
        rw [hxeq] at hl
        obtain ⟨t, ht⟩ := hl
        by_cases hte : t = []
        · rw [hte, List.append_nil] at ht
          exact hsep.1 ⟨[c.1], ht.symm⟩
        · exact hsep.2 (leadsTo_of_append_singleton ht.symm hte)
    rw [posAll, List.map_cons, List.nodup_cons]
    refine ⟨?_, ih hwf.2 hpw2⟩
    intro hp
    rw [List.mem_map] at hp
    obtain ⟨q, hq, hq1⟩ := hp
    obtain ⟨pe, hpe, hlead⟩ := pos_src _ q hq
    rcases List.mem_append.mp hpe with hpe | hpe
    · obtain ⟨c, hc, hceq⟩ := readDir_mem hpe
      rw [hceq, hq1] at hlead
      have hlen := leadsTo_length hlead
      rw [List.length_append] at hlen
      simp at hlen
    · have hsep := (List.pairwise_cons.mp hpw).1 pe hpe
      rw [hq1] at hlead
      exact hsep.2 hlead
  | case3 p v rest ih =>
    intro hwf hpw
    rw [wf_cons_file] at hwf
    rw [posAll, List.map_cons, List.nodup_cons]
    refine ⟨?_, ih hwf (List.pairwise_cons.mp hpw).2⟩
    intro hp
    rw [List.mem_map] at hp
    obtain ⟨q, hq, hq1⟩ := hp
    obtain ⟨pe, hpe, hlead⟩ := pos_src _ q hq
    have hsep := (List.pairwise_cons.mp hpw).1 pe hpe
    rw [hq1] at hlead
    exact hsep.2 hlead
  | case4 p rest ih =>
    intro hwf hpw
    rw [wf_cons_other] at hwf
    rw [posAll, List.map_cons, List.nodup_cons]
    refine ⟨?_, ih hwf (List.pairwise_cons.mp hpw).2⟩
    intro hp
    rw [List.mem_map] at hp
    obtain ⟨q, hq, hq1⟩ := hp
    obtain ⟨pe, hpe, hlead⟩ := pos_src _ q hq
    have hsep := (List.pairwise_cons.mp hpw).1 pe hpe
    rw [hq1] at hlead
    exact hsep.2 hlead

theorem store_flatten (S : Entry) :
    ([readDir prefixComps (childrenOf S)] : Frontier).flatten
      = readDir prefixComps (childrenOf S) := by
  rw [List.flatten_cons, List.flatten_nil, List.append_nil]

theorem store_pairwise (S : Entry) (h : storeOk S = true) :
    List.Pairwise sepPos (readDir prefixComps (childrenOf S)) := by
  rw [storeOk, Bool.and_eq_true] at h
  refine readDir_pairwise _ _ ?_
  cases S with
  | dir cs => exact (entryOk_dir h.1).1
  | file v => rfl
  | other => rfl

theorem store_nodup (S : Entry) (h : storeOk S = true) :
    ((storePositions S).map Prod.fst).Nodup := by
  rw [storePositions]
  refine pos_nodup _ ?_ (store_pairwise S h)
  rw [storeOk, Bool.and_eq_true] at h
  exact h.2

theorem leafProj_eq_some {pe : FsPath × Entry} {q : FsPath}
    (h : leafProj pe = some q) : pe.1 = q := by
  obtain ⟨a, e⟩ := pe
  cases e with
  | file v =>
    rw [leafProj, Option.some.injEq] at h
    exact h
  | dir cs => rw [leafProj] at h; cases h
  | other => rw [leafProj] at h; cases h

theorem mem_split_first {l : Listing} {x : FsPath × Entry}
    (hnd : (l.map Prod.fst).Nodup) (hx : x ∈ l) :
    ∃ P1 P2, l = P1 ++ x :: P2 ∧ ∀ pe ∈ P1, pe.1 ≠ x.1 := by
  obtain ⟨P1, P2, rfl⟩ := List.append_of_mem hx
  refine ⟨P1, P2, rfl, ?_⟩
  intro pe hpe heq
  rw [List.map_append, List.map_cons] at hnd
  have hdisj := (List.nodup_append.mp hnd).2.2
  have h1 : pe.1 ∈ P1.map Prod.fst := List.mem_map_of_mem _ hpe
  have h2 := hdisj h1
  rw [heq] at h2
  exact h2 (List.mem_cons_self _ _)

theorem fullEnum_eq (S : Entry) :
    fullEnum S = (storePositions S).filterMap leafProj := by
  rw [fullEnum, leavesAll_eq_posAll, storePositions]

/-- Shared engine for the seek-correctness claims: seeking any position of
the store leaves a walker that enumerates exactly the leaves of the
positions after that position, with a container's own subtree first. -/
theorem enumerate_found (fs S : Entry) (hwf : storeOk S = true)
    (hno : storeNoOther S = true) {t : FsPath} {e : Entry}
    (hmem : (t, e) ∈ storePositions S) :
    ∃ P1 P2, storePositions S = P1 ++ (t, e) :: P2
      ∧ (∀ pe ∈ P1, pe.1 ≠ t)
      ∧ enumerate fs S t = some ((P2.filterMap leafProj).map (itemOf fs))
      ∧ ∀ cs, e = Entry.dir cs →
          ∃ M2, P2.filterMap leafProj = leavesAll (readDir t cs) ++ M2 := by
  have hnd := store_nodup S hwf
  obtain ⟨P1, P2, hsp, hfirst⟩ := mem_split_first hnd hmem
  have hnoL : noOtherListing ([readDir prefixComps (childrenOf S)] : Frontier).flatten
      = true := by
    rw [store_flatten]
    exact hno
  have hsplit2 : posAll ([readDir prefixComps (childrenOf S)] : Frontier).flatten
      = P1 ++ (t, e) :: P2 := by
    rw [store_flatten]
    rw [storePositions] at hsp
    exact hsp
  obtain ⟨F, hseek, hFno, hFpos, hFdir⟩ :=
    seek_found [readDir prefixComps (childrenOf S)] t hnoL P1 e P2 hsplit2 hfirst
  have hrun := runWalker_eq fs F hFno
  rw [leavesAll_eq_posAll, hFpos] at hrun
  refine ⟨P1, P2, hsp, hfirst, ?_, ?_⟩
  · rw [enumerate, MibIter.new, hseek]
    exact hrun
  · intro cs he
    obtain ⟨M, hM⟩ := hFdir cs he
    refine ⟨(posAll M).filterMap leafProj, ?_⟩
    rw [← hFpos, hM, posAll_append, List.filterMap_append, ← leavesAll_eq_posAll]

/-- C1 support, root case: the store root path itself matches no traversal
entry, so a walker seeded at the root prefix is empty. -/
theorem enumerate_root (fs S : Entry) (hno : storeNoOther S = true) :
    enumerate fs S prefixComps = some [] := by
  have hnoL : noOtherListing ([readDir prefixComps (childrenOf S)] : Frontier).flatten
      = true := by
    rw [store_flatten]
    exact hno
  have hmiss : ∀ pe ∈ posAll ([readDir prefixComps (childrenOf S)] : Frontier).flatten,
      pe.1 ≠ prefixComps := by
    rw [store_flatten]
    intro pe hpe heq
    obtain ⟨pe2, hpe2, hlead⟩ := pos_src _ pe hpe
    obtain ⟨c, hc, hceq⟩ := readDir_mem hpe2
    rw [hceq] at hlead
    have hlen := leadsTo_length hlead
    rw [heq, List.length_append] at hlen
    simp at hlen
  have hseek := seek_missing [readDir prefixComps (childrenOf S)] prefixComps hnoL hmiss
  rw [enumerate, MibIter.new, hseek]
  show runWalker fs ([] : Frontier) = some []
  rw [runWalker]

theorem joinSep_nil (sep : Char) : joinSep sep [] = [] := rfl

theorem joinSep_single (sep : Char) (c : Str) : joinSep sep [c] = c := rfl

theorem joinSep_cons2 (sep : Char) (c c2 : Str) (cs : List Str) :
    joinSep sep (c :: c2 :: cs) = c ++ sep :: joinSep sep (c2 :: cs) := rfl

theorem splitSep_nil (sep : Char) : splitSep sep [] = [[]] := rfl

theorem splitSep_cons (sep c : Char) (s : Str) :
    splitSep sep (c :: s) =
      if c = sep then [] :: splitSep sep s
      else
        match splitSep sep s with
        | [] => [[c]]
        | p :: ps => (c :: p) :: ps := rfl

theorem splitSep_ne_nil (sep : Char) : ∀ s : Str, splitSep sep s ≠ []
  | [] => by
    rw [splitSep_nil]
    exact List.cons_ne_nil _ _
  | c :: s => by
    rw [splitSep_cons]
    by_cases h : c = sep
    · rw [if_pos h]
      exact List.cons_ne_nil _ _
    · rw [if_neg h]
      cases hs : splitSep sep s with
      | nil => exact List.cons_ne_nil _ _
      | cons p ps => exact List.cons_ne_nil _ _

theorem split_join (sep : Char) : ∀ s : Str, joinSep sep (splitSep sep s) = s
  | [] => by rw [splitSep_nil, joinSep_single]
  | c :: s => by
    have hIH := split_join sep s
    rw [splitSep_cons]
    by_cases h : c = sep
    · rw [if_pos h]
      cases hs : splitSep sep s with
      | nil => exact absurd hs (splitSep_ne_nil sep s)
      | cons p ps =>
        rw [hs] at hIH
        rw [joinSep_cons2, List.nil_append, hIH, h]
    · rw [if_neg h]
      cases hs : splitSep sep s with
      | nil => exact absurd hs (splitSep_ne_nil sep s)
      | cons p ps =>
        rw [hs] at hIH
        show joinSep sep ((c :: p) :: ps) = c :: s
        cases ps with
        | nil =>
          rw [joinSep_single] at hIH
          rw [joinSep_single, hIH]
        | cons q qs =>
          rw [joinSep_cons2] at hIH
          rw [joinSep_cons2, List.cons_append, hIH]

theorem splitSep_not_mem (sep : Char) : ∀ s : Str, ∀ c ∈ splitSep sep s, sep ∉ c
  | [] => by
    intro c hc
    rw [splitSep_nil, List.mem_singleton] at hc
    rw [hc]
    exact List.not_mem_nil sep
  | c0 :: s => by
    intro c hc
    rw [splitSep_cons] at hc
    by_cases h : c0 = sep
    · rw [if_pos h] at hc
      rcases List.mem_cons.mp hc with hc | hc
      · rw [hc]
        exact List.not_mem_nil sep
      · exact splitSep_not_mem sep s c hc
    · rw [if_neg h] at hc
      cases hs : splitSep sep s with
      | nil => exact absurd hs (splitSep_ne_nil sep s)
      | cons p ps =>
        rw [hs] at hc
        have hc2 : c ∈ (c0 :: p) :: ps := hc
        rcases List.mem_cons.mp hc2 with hc | hc
        · rw [hc]
          intro hmem
          rcases List.mem_cons.mp hmem with hmem | hmem
          · exact h hmem.symm
          · refine splitSep_not_mem sep s p ?_ hmem
            rw [hs]
            exact List.mem_cons_self _ _
        · refine splitSep_not_mem sep s c ?_
          rw [hs]
          exact List.mem_cons_of_mem _ hc

theorem splitSep_no_sep (sep : Char) : ∀ c : Str, sep ∉ c → splitSep sep c = [c]
  | [] => by
    intro _
    rw [splitSep_nil]
  | x :: xs => by
    intro h
    have hx : x ≠ sep := by
      intro he
      exact h (he ▸ List.mem_cons_self x xs)
    rw [splitSep_cons, if_neg hx,
      splitSep_no_sep sep xs (fun hm => h (List.mem_cons_of_mem _ hm))]

theorem splitSep_append_sep (sep : Char) : ∀ (a b : Str),
    splitSep sep (a ++ sep :: b) = splitSep sep a ++ splitSep sep b
  | [], b => by
    rw [List.nil_append, splitSep_cons, if_pos rfl, splitSep_nil,
      List.singleton_append]
  | c :: a, b => by
    rw [List.cons_append, splitSep_cons, splitSep_cons]
    by_cases h : c = sep
    · rw [if_pos h, if_pos h, splitSep_append_sep sep a b, List.cons_append]
    · rw [if_neg h, if_neg h]
      cases ha : splitSep sep a with
      | nil => exact absurd ha (splitSep_ne_nil sep a)
      | cons p ps =>
        rw [splitSep_append_sep sep a b, ha, List.cons_append]
        rfl

theorem join_split (sep : Char) : ∀ l : List Str, (∀ c ∈ l, sep ∉ c) → l ≠ [] →
    splitSep sep (joinSep sep l) = l
  | [] => by
    intro _ h
    exact absurd rfl h
  | [c] => by
    intro h _
    rw [joinSep_single, splitSep_no_sep sep c (h c (List.mem_singleton.mpr rfl))]
  | c :: c2 :: cs => by
    intro h _
    rw [joinSep_cons2, splitSep_append_sep,
      splitSep_no_sep sep c (h c (List.mem_cons_self _ _)),
      join_split sep (c2 :: cs) (fun d hd => h d (List.mem_cons_of_mem _ hd))
        (List.cons_ne_nil _ _), List.singleton_append]

theorem replaceChar_append (a b : Char) (x y : Str) :
    replaceChar a b (x ++ y) = replaceChar a b x ++ replaceChar a b y := by
  rw [replaceChar, replaceChar, replaceChar, List.map_append]

theorem replaceChar_sep (a b : Char) (y : Str) :
    replaceChar a b (a :: y) = b :: replaceChar a b y := by
  rw [replaceChar, replaceChar, List.map_cons, if_pos rfl]

theorem replaceChar_joinSep (a b : Char) : ∀ l : List Str,
    replaceChar a b (joinSep a l) = joinSep b (l.map (replaceChar a b))
  | [] => by
    rw [joinSep_nil, List.map_nil, joinSep_nil, replaceChar, List.map_nil]
  | [c] => by rw [joinSep_single, List.map_cons, List.map_nil, joinSep_single]
  | c :: c2 :: cs => by
    rw [joinSep_cons2, replaceChar_append, replaceChar_sep,
      replaceChar_joinSep a b (c2 :: cs)]
    conv_rhs => rw [List.map_cons, List.map_cons]
    rw [joinSep_cons2]
    conv_rhs => rw [← List.map_cons]

theorem replaceChar_id {a b : Char} : ∀ {c : Str}, a ∉ c → replaceChar a b c = c
  | [], _ => by rw [replaceChar, List.map_nil]
  | x :: xs, h => by
    have hx : x ≠ a := by
      intro he
      exact h (he ▸ List.mem_cons_self x xs)
    rw [replaceChar, List.map_cons, if_neg hx]
    have h2 := replaceChar_id (b := b) (fun hm => h (List.mem_cons_of_mem _ hm))
    rw [replaceChar] at h2
    rw [h2]

theorem mem_joinSep (sep : Char) : ∀ (l : List Str) (x : Char),
    x ∈ joinSep sep l → (∃ c ∈ l, x ∈ c) ∨ x = sep
  | [], x => by
    intro h
    rw [joinSep_nil] at h
    cases h
  | [c], x => by
    intro h
    rw [joinSep_single] at h
    exact Or.inl ⟨c, List.mem_singleton.mpr rfl, h⟩
  | c :: c2 :: cs, x => by
    intro h
    rw [joinSep_cons2] at h
    rcases List.mem_append.mp h with h | h
    · exact Or.inl ⟨c, List.mem_cons_self _ _, h⟩
    · rcases List.mem_cons.mp h with h | h
      · exact Or.inr h
      · rcases mem_joinSep sep (c2 :: cs) x h with ⟨d, hd, hx⟩ | h
        · exact Or.inl ⟨d, List.mem_cons_of_mem _ hd, hx⟩
        · exact Or.inr h

theorem dotfree_clean {c : Str} (h : ('.' : Char) ∉ c) :
    c ≠ ['.'] ∧ c ≠ ['.', '.'] := by
  constructor
  · intro he
    exact h (he ▸ List.mem_singleton.mpr rfl)
  · intro he
    exact h (he ▸ List.mem_cons_self _ _)

theorem normStep_clean {c : Str} (acc : List Str)
    (h1 : c ≠ ([] : Str)) (hd1 : c ≠ ['.']) (hd2 : c ≠ ['.', '.']) :
    normStep acc c = acc ++ [c] := by
  rw [normStep, if_neg h1, if_neg hd1, if_neg hd2]

theorem foldl_normStep_clean : ∀ (l : List Str) (acc : List Str),
    (∀ c ∈ l, c ≠ ([] : Str) ∧ c ≠ ['.'] ∧ c ≠ ['.', '.']) →
    List.foldl normStep acc l = acc ++ l
  | [], acc => by
    intro _
    rw [List.foldl_nil, List.append_nil]
  | c :: l, acc => by
    intro h
    rw [List.foldl_cons,
      normStep_clean acc (h c (List.mem_cons_self _ _)).1
        (h c (List.mem_cons_self _ _)).2.1 (h c (List.mem_cons_self _ _)).2.2,
      foldl_normStep_clean l (acc ++ [c]) (fun d hd => h d (List.mem_cons_of_mem _ hd)),
      List.append_assoc, List.singleton_append]

theorem leadSeg_iff {α : Type} [DecidableEq α] : ∀ (a b : List α),
    leadSeg a b = true ↔ ∃ t, b = a ++ t
  | [], b => by
    rw [leadSeg]
    simp
  | x :: as, [] => by
    rw [leadSeg]
    simp
  | x :: as, y :: bs => by
    rw [leadSeg, Bool.and_eq_true, decide_eq_true_eq, leadSeg_iff as bs]
    constructor
    · rintro ⟨h1, t, h2⟩
      exact ⟨t, by rw [List.cons_append, h1, h2]⟩
    · rintro ⟨t, h⟩
      rw [List.cons_append, List.cons.injEq] at h
      exact ⟨h.1.symm, t, h.2⟩

theorem leadSeg_append {α : Type} [DecidableEq α] (a t : List α) :
    leadSeg a (a ++ t) = true :=
  (leadSeg_iff a (a ++ t)).mpr ⟨t, rfl⟩

theorem map_id_of {α : Type} (f : α → α) : ∀ l : List α,
    (∀ a ∈ l, f a = a) → l.map f = l
  | [] => fun _ => rfl
  | x :: xs => fun h => by
    rw [List.map_cons, h x (List.mem_cons_self _ _),
      map_id_of f xs (fun a ha => h a (List.mem_cons_of_mem _ ha))]

theorem joinSep_head (sep : Char) : ∀ (c0 : Str) (l : List Str), c0 ≠ [] →
    (joinSep sep (c0 :: l)).head? = c0.head?
  | c0, [] => fun _ => by rw [joinSep_single]
  | c0, c2 :: cs => fun h => by
    rw [joinSep_cons2]
    cases c0 with
    | nil => exact absurd rfl h
    | cons x xs => rw [List.cons_append]; rfl

theorem joinSep_head_ne (sep x : Char) (P : List Str) (hP : P ≠ [])
    (hne : ∀ c ∈ P, c ≠ ([] : Str)) (hx : ∀ c ∈ P, x ∉ c) :
    (joinSep sep P).head? ≠ some x := by
  cases P with
  | nil => exact absurd rfl hP
  | cons c0 P2 =>
    rw [joinSep_head sep c0 P2 (hne c0 (List.mem_cons_self _ _))]
    cases c0 with
    | nil => exact absurd rfl (hne [] (List.mem_cons_self _ _))
    | cons y ys =>
      intro hcon
      have hyx : y = x := Option.some.inj hcon
      refine hx (y :: ys) (List.mem_cons_self _ _) ?_
      rw [← hyx]
      exact List.mem_cons_self y ys

/-- Canonicalizing the prefixed join of clean existing components returns
exactly those components. -/
theorem canonicalize_clean (fs : Entry) (P : List Str) (e : Entry)
    (hne : ∀ c ∈ P, c ≠ ([] : Str)) (hslash : ∀ c ∈ P, ('/' : Char) ∉ c)
    (hdot : ∀ c ∈ P, ('.' : Char) ∉ c) (hP : P ≠ [])
    (hres : lookupFs fs (prefixComps ++ P) = some e) :
    canonicalize fs (prefixStr ++ '/' :: joinSep '/' P)
      = Except.ok (prefixComps ++ P) := by
  have h1 : splitSep '/' prefixStr
      = [([] : Str), ("proc").toList, ("sys").toList] := by decide
  have hsplit : splitSep '/' (prefixStr ++ '/' :: joinSep '/' P)
      = [([] : Str), ("proc").toList, ("sys").toList] ++ P := by
    rw [splitSep_append_sep, join_split '/' P hslash hP, h1]
  have h2 : List.foldl normStep []
      [([] : Str), ("proc").toList, ("sys").toList] = prefixComps := by decide
  have hnorm : normComps (splitSep '/' (prefixStr ++ '/' :: joinSep '/' P))
      = prefixComps ++ P := by
    rw [hsplit, normComps, List.foldl_append, h2,
      foldl_normStep_clean P prefixComps
        (fun c hc => ⟨hne c hc, (dotfree_clean (hdot c hc)).1, (dotfree_clean (hdot c hc)).2⟩)]
  have hhead : (prefixStr ++ '/' :: joinSep '/' P).head? = some '/' := rfl
  rw [canonicalize, if_pos hhead, hnorm, hres]


theorem memC_iff (x : Char) : ∀ s : Str, memC x s = true ↔ x ∈ s
  | [] => by rw [memC]; simp
  | y :: ys => by
    rw [memC, Bool.or_eq_true, decide_eq_true_eq, memC_iff x ys, List.mem_cons]

theorem nameOk_then {n : Str} (h : nameOk n = true) :
    n ≠ ([] : Str) ∧ ('/' : Char) ∉ n ∧ n ≠ ['.'] ∧ n ≠ ['.', '.'] := by
  rw [nameOk, Bool.and_eq_true, Bool.and_eq_true, Bool.and_eq_true] at h
  obtain ⟨⟨⟨h1, h2⟩, h3⟩, h4⟩ := h
  rw [Bool.not_eq_true', decide_eq_false_iff_not] at h1 h3 h4
  rw [Bool.not_eq_true'] at h2
  refine ⟨h1, ?_, h3, h4⟩
  intro hmem
  rw [(memC_iff '/' n).mpr hmem] at h2
  cases h2

/-- Canonicalizing the rendered string of an existing path whose components
are valid directory-entry names returns exactly that path. -/
theorem canonicalize_ok (fs : Entry) (q : FsPath) (e : Entry)
    (hclean : ∀ c ∈ q, nameOk c = true) (hq : q ≠ [])
    (hres : lookupFs fs q = some e) :
    canonicalize fs (renderPath q) = Except.ok q := by
  have hslash : ∀ c ∈ q, ('/' : Char) ∉ c :=
    fun c hc => (nameOk_then (hclean c hc)).2.1
  have hsplit : splitSep '/' (renderPath q) = ([] : Str) :: q := by
    rw [renderPath, splitSep_cons, if_pos rfl, join_split '/' q hslash hq]
  have h0 : normStep [] ([] : Str) = [] := by rw [normStep, if_pos rfl]
  have hnorm : normComps (splitSep '/' (renderPath q)) = q := by
    rw [hsplit, normComps, List.foldl_cons, h0,
      foldl_normStep_clean q []
        (fun c hc => ⟨(nameOk_then (hclean c hc)).1,
          (nameOk_then (hclean c hc)).2.2.1, (nameOk_then (hclean c hc)).2.2.2⟩),
      List.nil_append]
  have hhead : (renderPath q).head? = some '/' := rfl
  rw [canonicalize, if_pos hhead, hnorm, hres]

theorem render_append (c0 : Str) (P2 : List Str) :
    renderPath (prefixComps ++ c0 :: P2)
      = prefixStr ++ '/' :: joinSep '/' (c0 :: P2) := rfl

/-- Every position path of the store is the prefix path extended by at
least one component. -/
theorem storePos_shape {S : Entry} {q : FsPath} {e : Entry}
    (h : (q, e) ∈ storePositions S) : ∃ c0 P2, q = prefixComps ++ c0 :: P2 := by
  rw [storePositions] at h
  obtain ⟨pe, hpe, hlead⟩ := pos_src _ (q, e) h
  obtain ⟨c, hc, hceq⟩ := readDir_mem hpe
  rw [hceq] at hlead
  obtain ⟨t, ht⟩ := hlead
  have ht2 : q = (prefixComps ++ [c.1]) ++ t := ht
  refine ⟨c.1, t, ?_⟩
  rw [ht2, List.append_assoc, List.singleton_append]

theorem lookup_append : ∀ (a b : FsPath) (fs : Entry),
    lookupFs fs (a ++ b) = (lookupFs fs a).bind (fun m => lookupFs m b)
  | [], b, fs => by
    rw [List.nil_append, lookupFs]
    rfl
  | c :: a, b, fs => by
    rw [List.cons_append]
    cases fs with
    | file v =>
      rw [lookupFs, lookupFs]
      rfl
    | other =>
      rw [lookupFs, lookupFs]
      rfl
    | dir cs =>
      rw [lookupFs, lookupFs]
      cases hfc : findChild cs c with
      | none => rfl
      | some m => exact lookup_append a b m

/-- With distinct sibling names, child lookup finds any child that is a
member of the listing. -/
theorem findChild_of_mem : ∀ (cs : List (Str × Entry)) (n : Str) (e : Entry),
    nodupB (namesOf cs) = true → (n, e) ∈ cs → findChild cs n = some e
  | [], n, e => by
    intro _ hmem
    cases hmem
  | (m, d) :: rest, n, e => by
    intro hnd hmem
    have hnd2 : memB m (namesOf rest) = false ∧ nodupB (namesOf rest) = true := by
      rw [namesOf, List.map_cons, nodupB, Bool.and_eq_true, Bool.not_eq_true'] at hnd
      exact ⟨hnd.1, hnd.2⟩
    rcases List.mem_cons.mp hmem with heq | hmem
    · have hp := heq
      rw [Prod.mk.injEq] at hp
      rw [findChild, if_pos hp.1.symm, hp.2]
    · by_cases hm : m = n
      · exfalso
        have hmm : memB m (namesOf rest) = true := by
          rw [memB_iff, hm]
          exact List.mem_map_of_mem Prod.fst hmem
        rw [hnd2.1] at hmm
        cases hmm
      · rw [findChild, if_neg hm]
        exact findChild_of_mem rest n e hnd2.2 hmem

/-- Traversal invariant: when every worklist entry resolves in the ambient
filesystem, so does every position produced by the traversal. -/
theorem pos_lookup (fs : Entry) : ∀ l : Listing, wfListing l = true →
    (∀ pe ∈ l, lookupFs fs pe.1 = some pe.2) →
    ∀ q ∈ posAll l, lookupFs fs q.1 = some q.2 := by
  intro l
  induction l using posAll.induct with
  | case1 =>
    intro _ _ q hq
    rw [posAll] at hq
    cases hq
  | case2 p cs rest ih =>
    intro hwf hl q hq
    rw [wf_cons_dir, Bool.and_eq_true] at hwf
    rw [posAll] at hq
    rcases List.mem_cons.mp hq with hq | hq
    · rw [hq]
      exact hl (p, Entry.dir cs) (List.mem_cons_self _ _)
    · refine ih hwf.2 ?_ q hq
      intro pe hpe
      rcases List.mem_append.mp hpe with hpe | hpe
      · obtain ⟨d, hd, hdeq⟩ := readDir_mem hpe
        rw [hdeq]
        show lookupFs fs (p ++ [d.1]) = some d.2
        have hp : lookupFs fs p = some (Entry.dir cs) :=
          hl (p, Entry.dir cs) (List.mem_cons_self _ _)
        rw [lookup_append p [d.1] fs, hp]
        show lookupFs (Entry.dir cs) [d.1] = some d.2
        rw [lookupFs, findChild_of_mem cs d.1 d.2 (entryOk_dir hwf.1).1
          (by rw [Prod.mk.eta]; exact hd)]
        show lookupFs d.2 [] = some d.2
        rw [lookupFs]
      · exact hl pe (List.mem_cons_of_mem _ hpe)
  | case3 p v rest ih =>
    intro hwf hl q hq
    rw [wf_cons_file] at hwf
    rw [posAll] at hq
    rcases List.mem_cons.mp hq with hq | hq
    · rw [hq]
      exact hl (p, Entry.file v) (List.mem_cons_self _ _)
    · exact ih hwf (fun pe hpe => hl pe (List.mem_cons_of_mem _ hpe)) q hq
  | case4 p rest ih =>
    intro hwf hl q hq
    rw [wf_cons_other] at hwf
    rw [posAll] at hq
    rcases List.mem_cons.mp hq with hq | hq
    · rw [hq]
      exact hl (p, Entry.other) (List.mem_cons_self _ _)
    · exact ih hwf (fun pe hpe => hl pe (List.mem_cons_of_mem _ hpe)) q hq

/-- Every position of a well-formed store linked at the prefix path of the
ambient filesystem resolves there to its entry. -/
theorem store_pos_lookup (fs S : Entry) (hlink : lookupFs fs prefixComps = some S)
    (hwf : storeOk S = true) {q : FsPath} {e2 : Entry}
    (hq : (q, e2) ∈ storePositions S) : lookupFs fs q = some e2 := by
  rw [storeOk, Bool.and_eq_true] at hwf
  rw [storePositions] at hq
  refine pos_lookup fs _ hwf.2 ?_ (q, e2) hq
  intro pe hpe
  obtain ⟨d, hd, hdeq⟩ := readDir_mem hpe
  rw [hdeq]
  show lookupFs fs (prefixComps ++ [d.1]) = some d.2
  rw [lookup_append prefixComps [d.1] fs, hlink]
  cases S with
  | dir cs =>
    rw [childrenOf] at hd
    show lookupFs (Entry.dir cs) [d.1] = some d.2
    rw [lookupFs, findChild_of_mem cs d.1 d.2 (entryOk_dir hwf.1).1
      (by rw [Prod.mk.eta]; exact hd)]
    show lookupFs d.2 [] = some d.2
    rw [lookupFs]
  | file v => exact absurd hd (List.not_mem_nil d)
  | other => exact absurd hd (List.not_mem_nil d)

/-- Traversal invariant: when every worklist path consists of valid names
and every reachable directory has valid child names, so does every
position path. -/
theorem pos_clean : ∀ l : Listing, wfListing l = true →
    (∀ pe ∈ l, ∀ c ∈ pe.1, nameOk c = true) →
    ∀ q ∈ posAll l, ∀ c ∈ q.1, nameOk c = true := by
  intro l
  induction l using posAll.induct with
  | case1 =>
    intro _ _ q hq
    rw [posAll] at hq
    cases hq
  | case2 p cs rest ih =>
    intro hwf hcl q hq
    rw [wf_cons_dir, Bool.and_eq_true] at hwf
    rw [posAll] at hq
    rcases List.mem_cons.mp hq with hq | hq
    · intro c hc
      rw [hq] at hc
      exact hcl (p, Entry.dir cs) (List.mem_cons_self _ _) c hc
    · refine ih hwf.2 ?_ q hq
      intro pe hpe
      rcases List.mem_append.mp hpe with hpe | hpe
      · obtain ⟨d, hd, hdeq⟩ := readDir_mem hpe
        intro c hc
        rw [hdeq] at hc
        have hc2 : c ∈ p ++ [d.1] := hc
        rcases List.mem_append.mp hc2 with hc3 | hc3
        · exact hcl (p, Entry.dir cs) (List.mem_cons_self _ _) c hc3
        · have hall := (entryOk_dir hwf.1).2
          rw [List.all_eq_true] at hall
          rw [List.mem_singleton.mp hc3]
          exact hall d.1 (List.mem_map_of_mem Prod.fst hd)
      · exact hcl pe (List.mem_cons_of_mem _ hpe)
  | case3 p v rest ih =>
    intro hwf hcl q hq
    rw [wf_cons_file] at hwf
    rw [posAll] at hq
    rcases List.mem_cons.mp hq with hq | hq
    · intro c hc
      rw [hq] at hc
      exact hcl (p, Entry.file v) (List.mem_cons_self _ _) c hc
    · exact ih hwf (fun pe hpe => hcl pe (List.mem_cons_of_mem _ hpe)) q hq
  | case4 p rest ih =>
    intro hwf hcl q hq
    rw [wf_cons_other] at hwf
    rw [posAll] at hq
    rcases List.mem_cons.mp hq with hq | hq
    · intro c hc
      rw [hq] at hc
      exact hcl (p, Entry.other) (List.mem_cons_self _ _) c hc
    · exact ih hwf (fun pe hpe => hcl pe (List.mem_cons_of_mem _ hpe)) q hq

/-- Every position path of a well-formed store consists of valid names. -/
theorem store_pos_clean (S : Entry) (hwf : storeOk S = true) {q : FsPath}
    {e2 : Entry} (hq : (q, e2) ∈ storePositions S) :
    ∀ c ∈ q, nameOk c = true := by
  rw [storeOk, Bool.and_eq_true] at hwf
  rw [storePositions] at hq
  refine pos_clean _ hwf.2 ?_ (q, e2) hq
  intro pe hpe c hc
  obtain ⟨d, hd, hdeq⟩ := readDir_mem hpe
  rw [hdeq] at hc
  have hc2 : c ∈ prefixComps ++ [d.1] := hc
  have hpref : ∀ x ∈ prefixComps, nameOk x = true := by decide
  rcases List.mem_append.mp hc2 with hc3 | hc3
  · exact hpref c hc3
  · rw [List.mem_singleton.mp hc3]
    cases S with
    | dir cs =>
      rw [childrenOf] at hd
      have hall := (entryOk_dir hwf.1).2
      rw [List.all_eq_true] at hall
      exact hall d.1 (List.mem_map_of_mem Prod.fst hd)
    | file v => exact absurd hd (List.not_mem_nil d)
    | other => exact absurd hd (List.not_mem_nil d)

/-- The item the walker produces for a store position: `Ok` of the path —
except when the rendered path string also ends with `PATH_PREFIX`, where
`Mib::from_str` rejects it with `NotFound`, so the walker emits an `Err`
item. -/
theorem store_itemOf (fs S : Entry) (hlink : lookupFs fs prefixComps = some S)
    (hwf : storeOk S = true) {q : FsPath} {e2 : Entry}
    (hq : (q, e2) ∈ storePositions S) :
    itemOf fs q = if trailSeg prefixStr (renderPath q) = true
      then Except.error Err.notFound else Except.ok q := by
  obtain ⟨c0, P2, hsh⟩ := storePos_shape hq
  subst hsh
  rw [itemOf, fromStr,
    if_pos (by rw [render_append]; exact leadSeg_append prefixStr _)]
  by_cases htr : trailSeg prefixStr (renderPath (prefixComps ++ c0 :: P2)) = true
  · rw [if_pos htr, if_pos htr]
  · rw [if_neg htr, if_neg htr]
    exact canonicalize_ok fs _ e2 (store_pos_clean S hwf hq)
      (fun h => List.cons_ne_nil c0 P2 (List.append_eq_nil.mp h).2)
      (store_pos_lookup fs S hlink hwf hq)

theorem leafProj_shape {pe : FsPath × Entry} {q : FsPath}
    (h : leafProj pe = some q) : ∃ v, pe = (q, Entry.file v) := by
  obtain ⟨a, e⟩ := pe
  cases e with
  | file v =>
    rw [leafProj, Option.some.injEq] at h
    exact ⟨v, by rw [h]⟩
  | dir cs => rw [leafProj] at h; cases h
  | other => rw [leafProj] at h; cases h

/-- Every path of the full leaf enumeration is a leaf position. -/
theorem mem_fullEnum_file {S : Entry} {q : FsPath} (h : q ∈ fullEnum S) :
    ∃ v, (q, Entry.file v) ∈ storePositions S := by
  rw [fullEnum_eq, List.mem_filterMap] at h
  obtain ⟨pe, hpe, hproj⟩ := h
  obtain ⟨v, hv⟩ := leafProj_shape hproj
  exact ⟨v, hv ▸ hpe⟩

/-- Children of the sample store's `kernel` container. -/
def kernelChildren : List (Str × Entry) :=
  [(("ostype").toList, Entry.file ("Linux").toList),
   (("osrelease").toList, Entry.file ("5.10").toList)]

/-- A small sample store: `/proc/sys/kernel` with leaves `ostype` and
`osrelease`, used as concrete input for witnesses and counterexamples. -/
def sampleStore : Entry :=
  Entry.dir [(("kernel").toList, Entry.dir kernelChildren)]

/-- Path `/proc/sys/kernel` of the sample store. -/
def kernelPath : FsPath := prefixComps ++ [("kernel").toList]

/-- Path `/proc/sys/kernel/ostype` of the sample store. -/
def ostypePath : FsPath := kernelPath ++ [("ostype").toList]

/-- Path `/proc/sys/kernel/osrelease` of the sample store. -/
def osreleasePath : FsPath := kernelPath ++ [("osrelease").toList]

/-- The sample store mounted at `/proc/sys` of a filesystem root. -/
def sampleFs : Entry :=
  Entry.dir [(("proc").toList, Entry.dir [(("sys").toList, sampleStore)])]

/-- A store containing a leaf whose full path ends with the prefix string:
`/proc/sys/a/proc/sys` is a file. -/
def nestedStore : Entry :=
  Entry.dir [(("a").toList,
    Entry.dir [(("proc").toList,
      Entry.dir [(("sys").toList, Entry.file ("x").toList)])])]

/-- `nestedStore` mounted at `/proc/sys` of a filesystem root. -/
def nestedFs : Entry :=
  Entry.dir [(("proc").toList, Entry.dir [(("sys").toList, nestedStore)])]

/-- The path `/proc/sys/a/proc/sys` of the nested store's leaf. -/
def nestedLeafPath : FsPath :=
  prefixComps ++ [("a").toList, ("proc").toList, ("sys").toList]

/-- C1 (amended): over any well-formed store without unsupported entries,
linked at the prefix path of the ambient filesystem, a walker seeded at a
leaf path yields exactly the suffix of the full pre-order leaf enumeration
strictly after that leaf, and a walker seeded at a container path strictly
below the root yields exactly the suffix that starts with the leaves of
that container's subtree — each yielded item being the `Mib::from_str`
result for the leaf's rendered path string: `Ok` of the leaf path, except
for a leaf whose rendered path also ends with the prefix string, which
comes out as an `Err(NotFound)` item.  A walker seeded at the root prefix
itself yields nothing (not the full enumeration, as the unamended claim
would require for the root container). -/
theorem c1_seek_suffix (fs S : Entry) (hlink : lookupFs fs prefixComps = some S)
    (hwf : storeOk S = true) (hno : storeNoOther S = true) :
    (∀ q ∈ fullEnum S, itemOf fs q
        = if trailSeg prefixStr (renderPath q) = true
          then Except.error Err.notFound else Except.ok q)
    ∧ (∀ p v, (p, Entry.file v) ∈ storePositions S →
        ∃ pre post, fullEnum S = pre ++ p :: post ∧ p ∉ pre
          ∧ enumerate fs S p = some (post.map (itemOf fs)))
    ∧ (∀ c cs, (c, Entry.dir cs) ∈ storePositions S →
        ∃ pre out2, fullEnum S = pre ++ (leavesAll (readDir c cs) ++ out2)
          ∧ enumerate fs S c
            = some ((leavesAll (readDir c cs) ++ out2).map (itemOf fs)))
    ∧ enumerate fs S prefixComps = some [] := by
  refine ⟨?_, ?_, ?_, enumerate_root fs S hno⟩
  · intro q hq
    obtain ⟨v, hv⟩ := mem_fullEnum_file hq
    exact store_itemOf fs S hlink hwf hv
  · intro p v hmem
    obtain ⟨P1, P2, hsp, hfirst, henum, _⟩ := enumerate_found fs S hwf hno hmem
    refine ⟨P1.filterMap leafProj, P2.filterMap leafProj, ?_, ?_, henum⟩
    · rw [fullEnum_eq, hsp, List.filterMap_append, List.filterMap_cons]
      rfl
    · intro hp
      rw [List.mem_filterMap] at hp
      obtain ⟨pe, hpe, hproj⟩ := hp
      exact hfirst pe hpe (leafProj_eq_some hproj)
  · intro c cs hmem
    obtain ⟨P1, P2, hsp, hfirst, henum, hdir⟩ := enumerate_found fs S hwf hno hmem
    obtain ⟨M2, hM2⟩ := hdir cs rfl
    refine ⟨P1.filterMap leafProj, M2, ?_, ?_⟩
    · rw [fullEnum_eq, hsp, List.filterMap_append, List.filterMap_cons, ← hM2]
      rfl
    · rw [henum, hM2]

/-- Witness for C1: at the sample store, seeking the leaf `kernel.ostype`,
the container `kernel`, and the root prefix, with the suffix items shown
to be `Ok`; and at the nested store, whose leaf's rendered path ends with
the prefix string, the item is the `Err(NotFound)` of `from_str`.  Every
hypothesis is discharged concretely. -/
theorem c1_seek_suffix_witness :
    (∃ pre post, fullEnum sampleStore = pre ++ ostypePath :: post
      ∧ ostypePath ∉ pre
      ∧ enumerate sampleFs sampleStore ostypePath
        = some (post.map (itemOf sampleFs)))
    ∧ (∃ pre out2, fullEnum sampleStore
          = pre ++ (leavesAll (readDir kernelPath kernelChildren) ++ out2)
        ∧ enumerate sampleFs sampleStore kernelPath
          = some ((leavesAll (readDir kernelPath kernelChildren) ++ out2).map
              (itemOf sampleFs)))
    ∧ enumerate sampleFs sampleStore prefixComps = some []
    ∧ itemOf sampleFs ostypePath = Except.ok ostypePath
    ∧ itemOf nestedFs nestedLeafPath = Except.error Err.notFound := by
  have h := c1_seek_suffix sampleFs sampleStore (by decide)
    (by simp [storeOk, entryOk, wfListing, posAll, readDir, nodupB, memB, namesOf,
      nameOk, memC, sampleStore, kernelChildren, prefixComps, childrenOf])
    (by simp [storeNoOther, noOtherListing, posAll, readDir, notOther,
      sampleStore, kernelChildren, prefixComps, childrenOf])
  have h2 := c1_seek_suffix nestedFs nestedStore (by decide)
    (by simp [storeOk, entryOk, wfListing, posAll, readDir, nodupB, memB, namesOf,
      nameOk, memC, nestedStore, prefixComps, childrenOf])
    (by simp [storeNoOther, noOtherListing, posAll, readDir, notOther,
      nestedStore, prefixComps, childrenOf])
  refine ⟨h.2.1 ostypePath (("Linux").toList)
      (by simp [storePositions, posAll, readDir, sampleStore, kernelChildren,
        prefixComps, ostypePath, kernelPath, childrenOf]),
    h.2.2.1 kernelPath kernelChildren
      (by simp [storePositions, posAll, readDir, sampleStore, kernelChildren,
        prefixComps, kernelPath, childrenOf]),
    h.2.2.2, ?_, ?_⟩
  · have h3 := h.1 ostypePath
      (by simp [fullEnum, leavesAll, readDir, sampleStore, kernelChildren,
        prefixComps, ostypePath, kernelPath, childrenOf])
    rw [h3, if_neg (by decide)]
  · have h4 := h2.1 nestedLeafPath
      (by simp [fullEnum, leavesAll, readDir, nestedStore, prefixComps,
        nestedLeafPath, childrenOf])
    rw [h4, if_pos (by decide)]

/-- Counterexample for C1 as stated: the store root prefix `/proc/sys` is
itself a container path, but the walker seeded at it is empty instead of
yielding the full enumeration (the suffix starting at the first leaf of
the root's subtree). -/
theorem c1_root_counterexample :
    enumerate sampleFs sampleStore prefixComps = some []
    ∧ fullEnum sampleStore = [ostypePath, osreleasePath]
    ∧ enumerate sampleFs sampleStore prefixComps
        ≠ some ((fullEnum sampleStore).map (itemOf sampleFs)) := by
  refine ⟨?_, ?_, ?_⟩
  · simp [enumerate, MibIter.new, seek, runWalker, sampleStore, kernelChildren,
      readDir, childrenOf, prefixComps]
  · simp [fullEnum, leavesAll, sampleStore, kernelChildren, readDir, childrenOf,
      prefixComps, ostypePath, osreleasePath, kernelPath]
  · simp [enumerate, MibIter.new, seek, runWalker, fullEnum, leavesAll,
      sampleStore, kernelChildren, readDir, childrenOf, prefixComps]

/-- C2 (amended): when the seek phase's current entry is a container whose
path equals the target, the container's listing is opened and pushed
*before* the stop check, so seek stops with the target container's own
fresh listing on top of the frontier, above the parent's remainder — the
container is expanded, not left unexpanded. -/
theorem c2_seek_push (stop : FsPath) (cs : List (Str × Entry)) (l2 : Listing)
    (rest : Frontier) :
    seek (((stop, Entry.dir cs) :: l2) :: rest) stop
      = some (readDir stop cs :: l2 :: rest) := by
  rw [seek, if_pos rfl]

/-- Counterexample for C2 as stated: seeking the container `kernel` in the
sample store leaves the frontier with `kernel`'s freshly opened listing on
top, not the exhausted parent listing with `kernel` unexpanded. -/
theorem c2_counterexample :
    MibIter.new sampleStore kernelPath
      = some [readDir kernelPath kernelChildren, []]
    ∧ MibIter.new sampleStore kernelPath ≠ some [[]] := by
  constructor
  · simp [MibIter.new, seek, sampleStore, kernelChildren, readDir, childrenOf,
      prefixComps, kernelPath]
  · simp [MibIter.new, seek, sampleStore, kernelChildren, readDir, childrenOf,
      prefixComps, kernelPath]

/-- A store containing an entry of unsupported type (e.g. a symlink). -/
def symlinkStore : Entry :=
  Entry.dir [(("weird").toList, Entry.other)]

/-- Path of the unsupported entry in `symlinkStore`. -/
def weirdPath : FsPath := prefixComps ++ [("weird").toList]

/-- `symlinkStore` mounted at `/proc/sys` of a filesystem root. -/
def symlinkFs : Entry :=
  Entry.dir [(("proc").toList, Entry.dir [(("sys").toList, symlinkStore)])]

/-- Whether a `next` outcome is an error item returned to the caller
(`Some(Err(_))` in the source). -/
def isErrResult : StepResult → Bool
  | StepResult.yielded _ _ => false
  | StepResult.failed _ _ => true
  | StepResult.done _ => false
  | StepResult.panicked => false

/-- C3 (amended): an entry that is neither container nor leaf is fatal for
both seek and next, by a panic (the source's `unimplemented!()`) that
aborts the operation — the entry is never skipped, and no error value is
returned to the caller. -/
theorem c3_unsupported_panics (fs : Entry) (p : FsPath) (l2 : Listing)
    (rest : Frontier) (stop : FsPath) :
    next fs (((p, Entry.other) :: l2) :: rest) = StepResult.panicked
    ∧ seek (((p, Entry.other) :: l2) :: rest) stop = none
    ∧ isErrResult StepResult.panicked = false := by
  refine ⟨?_, ?_, rfl⟩
  · rw [next]
  · rw [seek]

/-- Counterexample for C3 as stated: on a store with a symlink-like entry,
`next` panics — the outcome is not an error result surfaced to the caller,
and `MibIter::new` panics as well instead of returning an error. -/
theorem c3_counterexample :
    next symlinkFs [readDir prefixComps (childrenOf symlinkStore)]
      = StepResult.panicked
    ∧ isErrResult
        (next symlinkFs [readDir prefixComps (childrenOf symlinkStore)]) = false
    ∧ MibIter.new symlinkStore weirdPath = none := by
  refine ⟨?_, ?_, ?_⟩
  · simp [next, symlinkStore, readDir, childrenOf, prefixComps]
  · simp [next, isErrResult, symlinkStore, readDir, childrenOf, prefixComps]
  · simp [MibIter.new, seek, symlinkStore, readDir, childrenOf, prefixComps]

/-- C6: over a well-formed store without unsupported entries, linked at
the prefix path, every `Ok` item yielded by the walker is a leaf position
of the store, and no `Ok` item addresses a container position — containers
only cause a descent and are never returned. -/
theorem c6_only_leaves (fs S : Entry) (hlink : lookupFs fs prefixComps = some S)
    (hwf : storeOk S = true) (hno : storeNoOther S = true) (t : FsPath)
    (out : List (Except Err FsPath)) (h : enumerate fs S t = some out) :
    (∀ q, Except.ok q ∈ out → ∃ v, (q, Entry.file v) ∈ storePositions S)
    ∧ (∀ q, Except.ok q ∈ out → ∀ cs, (q, Entry.dir cs) ∉ storePositions S) := by
  have hmain : ∀ q, Except.ok q ∈ out →
      ∃ v, (q, Entry.file v) ∈ storePositions S := by
    by_cases hex : ∃ pe ∈ storePositions S, pe.1 = t
    · obtain ⟨⟨t2, e⟩, hmem, h1⟩ := hex
      cases h1
      obtain ⟨P1, P2, hsp, hfirst, henum, _⟩ := enumerate_found fs S hwf hno hmem
      rw [h] at henum
      have hout : out = (P2.filterMap leafProj).map (itemOf fs) :=
        Option.some.inj henum
      intro q hq
      rw [hout, List.mem_map] at hq
      obtain ⟨r, hr, hitem⟩ := hq
      rw [List.mem_filterMap] at hr
      obtain ⟨pe, hpe, hproj⟩ := hr
      obtain ⟨v, hv⟩ := leafProj_shape hproj
      have hpos : (r, Entry.file v) ∈ storePositions S := by
        rw [hsp, ← hv]
        exact List.mem_append_right _ (List.mem_cons_of_mem _ hpe)
      have hspec := store_itemOf fs S hlink hwf hpos
      rw [hitem] at hspec
      by_cases htr : trailSeg prefixStr (renderPath r) = true
      · rw [if_pos htr] at hspec
        exact Except.noConfusion hspec
      · rw [if_neg htr] at hspec
        have hqr : r = q := (Except.ok.inj hspec).symm
        rw [← hqr]
        exact ⟨v, hpos⟩
    · have hnoL : noOtherListing
          ([readDir prefixComps (childrenOf S)] : Frontier).flatten = true := by
        rw [store_flatten]
        exact hno
      have hmiss : ∀ pe ∈ posAll
          ([readDir prefixComps (childrenOf S)] : Frontier).flatten, pe.1 ≠ t := by
        rw [store_flatten]
        intro pe hpe heq
        exact hex ⟨pe, hpe, heq⟩
      have hseek := seek_missing _ t hnoL hmiss
      rw [enumerate, MibIter.new, hseek] at h
      have hout : out = [] := by
        have h2 : runWalker fs ([] : Frontier) = some out := h
        rw [runWalker, Option.some.injEq] at h2
        exact h2.symm
      intro q hq
      rw [hout] at hq
      cases hq
  refine ⟨hmain, ?_⟩
  intro q hq cs hdir
  obtain ⟨v, hv⟩ := hmain q hq
  have hnd := store_nodup S hwf
  have heq := List.inj_on_of_nodup_map hnd hv hdir rfl
  cases heq

/-- Witness for C6 at the sample store: the walker seeded at
`kernel.ostype` yields the `Ok` item `kernel.osrelease`, which is a leaf
position. -/
theorem c6_only_leaves_witness :
    ∃ v, (osreleasePath, Entry.file v) ∈ storePositions sampleStore := by
  have henum : enumerate sampleFs sampleStore ostypePath
      = some [Except.ok osreleasePath] := by
    have hstep : enumerate sampleFs sampleStore ostypePath
        = some [itemOf sampleFs osreleasePath] := by
      simp [enumerate, MibIter.new, seek, runWalker, sampleStore, kernelChildren,
        readDir, childrenOf, prefixComps, ostypePath, osreleasePath, kernelPath]
    rw [hstep]
    decide
  have h := c6_only_leaves sampleFs sampleStore (by decide)
    (by simp [storeOk, entryOk, wfListing, posAll, readDir, nodupB, memB, namesOf,
      nameOk, memC, sampleStore, kernelChildren, prefixComps, childrenOf])
    (by simp [storeNoOther, noOtherListing, posAll, readDir, notOther,
      sampleStore, kernelChildren, prefixComps, childrenOf])
    ostypePath [Except.ok osreleasePath] henum
  exact h.1 osreleasePath (List.mem_singleton.mpr rfl)

/-- C7: with an empty frontier, `next` reports exhaustion and leaves the
frontier empty; conversely, whenever `next` reports exhaustion the
frontier it leaves behind is empty, so every later call keeps reporting
exhaustion — never an error and never an item. -/
theorem c7_exhaustion (fs : Entry) :
    next fs ([] : Frontier) = StepResult.done []
    ∧ ∀ d s2, next fs d = StepResult.done s2 →
        s2 = [] ∧ next fs s2 = StepResult.done [] := by
  refine ⟨by rw [next], ?_⟩
  intro d
  induction d using next.induct fs with
  | case1 =>
    intro s2 h
    rw [next] at h
    cases h
    exact ⟨rfl, by rw [next]⟩
  | case2 rest ih =>
    intro s2 h
    rw [next] at h
    exact ih s2 h
  | case3 p cs l2 rest ih =>
    intro s2 h
    rw [next] at h
    exact ih s2 h
  | case4 p v l2 rest =>
    intro s2 h
    rw [next] at h
    cases h
  | case5 p l2 rest =>
    intro s2 h
    rw [next] at h
    cases h

/-- Witness for C7: applying the exhaustion theorem to the concrete
frontier holding one exhausted listing. -/
theorem c7_exhaustion_witness :
    ([] : Frontier) = []
    ∧ next sampleFs ([] : Frontier) = StepResult.done [] :=
  (c7_exhaustion sampleFs).2 [[]] [] (by rw [next, next])

/-- C8: `Mib::value` on a path that is a container fails with the
container-read error (`ErrorKind::Other`, the spec's `InvalidOperation`,
with the source's message) and reads no payload at all; on a leaf it
returns the leaf's entire payload. -/
theorem c8_value (fs : Entry) (p : FsPath) :
    (∀ cs, lookupFs fs p = some (Entry.dir cs) →
        valueTr fs p = (Except.error (Err.otherMsg containerReadMsg), []))
    ∧ (∀ v, lookupFs fs p = some (Entry.file v) →
        valueTr fs p = (Except.ok v, [p])) := by
  constructor
  · intro cs h
    simp only [valueTr, h]
  · intro v h
    simp only [valueTr, h]

/-- Witness for C8 at the sample filesystem: reading the container
`kernel` fails without any read; reading the leaf `kernel.ostype` returns
its whole payload. -/
theorem c8_value_witness :
    valueTr sampleFs kernelPath
      = (Except.error (Err.otherMsg containerReadMsg), [])
    ∧ valueTr sampleFs ostypePath = (Except.ok ("Linux").toList, [ostypePath]) :=
  ⟨(c8_value sampleFs kernelPath).1 (childrenOf (Entry.dir kernelChildren))
      (by decide),
   (c8_value sampleFs ostypePath).2 (("Linux").toList) (by decide)⟩

theorem findChild_map_update (c : Str) (rest : FsPath) (v : Str) :
    ∀ (cs : List (Str × Entry)) (e : Entry), findChild cs c = some e →
    findChild (cs.map (fun ne => if ne.1 = c then (ne.1, updateFs ne.2 rest v) else ne)) c
      = some (updateFs e rest v)
  | [], e => by
    intro h
    rw [findChild] at h
    cases h
  | d :: ds, e => by
    intro h
    by_cases hd : d.1 = c
    · simp only [findChild, if_pos hd] at h
      have he := Option.some.inj h
      simp [findChild, hd, he]
    · simp only [findChild, if_neg hd] at h
      simp [findChild, hd, findChild_map_update c rest v ds e h]

/-- Re-reading a leaf right after writing it observes the written
payload. -/
theorem lookup_update : ∀ (p : FsPath) (fs : Entry) (v w : Str),
    lookupFs fs p = some (Entry.file w) →
    lookupFs (updateFs fs p v) p = some (Entry.file v)
  | [], fs, v, w => by
    intro h
    rw [lookupFs] at h
    have hfs := Option.some.inj h
    rw [hfs, updateFs, lookupFs]
  | c :: rest, fs, v, w => by
    intro h
    cases fs with
    | file u => rw [lookupFs] at h; cases h
    | other => rw [lookupFs] at h; cases h
    | dir cs =>
      rw [lookupFs] at h
      cases hfc : findChild cs c with
      | none => rw [hfc] at h; cases h
      | some e =>
        rw [hfc] at h
        rw [updateFs, lookupFs, findChild_map_update c rest v cs e hfc]
        exact lookup_update rest e v w h

/-- C9: writing to an existing leaf succeeds; the value returned by
`Mib::set_value` is the immediate re-read of the leaf after the write,
and — with no external mutation in the model — that value is exactly the
written payload. -/
theorem c9_set_value (fs : Entry) (p : FsPath) (v w : Str)
    (h : lookupFs fs p = some (Entry.file w)) :
    setValue fs p v = Except.ok (v, updateFs fs p v)
    ∧ Mib.value (updateFs fs p v) p = Except.ok v := by
  have hu := lookup_update p fs v w h
  constructor
  · simp only [setValue, h, Mib.value, valueTr, hu]
    rfl
  · simp only [Mib.value, valueTr, hu]

/-- Witness for C9: overwriting `kernel.ostype` in the sample filesystem
returns the written payload. -/
theorem c9_set_value_witness :
    setValue sampleFs ostypePath (("NewOS").toList)
      = Except.ok ((("NewOS").toList), updateFs sampleFs ostypePath (("NewOS").toList))
    ∧ Mib.value (updateFs sampleFs ostypePath (("NewOS").toList)) ostypePath
      = Except.ok (("NewOS").toList) :=
  c9_set_value sampleFs ostypePath (("NewOS").toList) (("Linux").toList) (by decide)

/-- C5 (amended): the name-to-path-to-name round trip holds for every
dotted name whose dot-separated components are all nonempty and contain no
path separator, whenever the joined path exists in the store (the resolved
entry being a container or a leaf; the model does not resolve symbolic
links).  The counterexample `kernel..ostype` shows the restriction to
nonempty components is necessary. -/
theorem c5_roundtrip (fs : Entry) (n : Str) (e : Entry)
    (hpieces : ∀ c ∈ splitSep '.' n, c ≠ ([] : Str) ∧ ('/' : Char) ∉ c)
    (hres : lookupFs fs (prefixComps ++ splitSep '.' n) = some e)
    (hsym : notOther e = true) :
    fromStr fs n = Except.ok (prefixComps ++ splitSep '.' n)
    ∧ Mib.name (prefixComps ++ splitSep '.' n) = Except.ok n := by
  have hdot : ∀ c ∈ splitSep '.' n, ('.' : Char) ∉ c := splitSep_not_mem '.' n
  have hne : ∀ c ∈ splitSep '.' n, c ≠ ([] : Str) := fun c hc => (hpieces c hc).1
  have hslash : ∀ c ∈ splitSep '.' n, ('/' : Char) ∉ c := fun c hc => (hpieces c hc).2
  have hP := splitSep_ne_nil '.' n
  have hjoin : joinSep '.' (splitSep '.' n) = n := split_join '.' n
  have hnoslash : ('/' : Char) ∉ n := by
    intro hmem
    rw [← hjoin] at hmem
    rcases mem_joinSep '.' _ '/' hmem with ⟨c, hc, hx⟩ | hx
    · exact hslash c hc hx
    · exact absurd hx (by decide)
  have hstart : leadSeg prefixStr n = false := by
    cases hcase : leadSeg prefixStr n with
    | false => rfl
    | true =>
      obtain ⟨t, ht⟩ := (leadSeg_iff prefixStr n).mp hcase
      refine absurd ?_ hnoslash
      rw [ht]
      exact List.mem_append.mpr (Or.inl (by decide))
  have hrepl : replaceChar '.' '/' n = joinSep '/' (splitSep '.' n) := by
    conv_lhs => rw [← hjoin]
    rw [replaceChar_joinSep,
      map_id_of (replaceChar '.' '/') (splitSep '.' n)
        (fun c hc => replaceChar_id (hdot c hc))]
  have hjp : joinPath prefixStr (joinSep '/' (splitSep '.' n))
      = prefixStr ++ '/' :: joinSep '/' (splitSep '.' n) := by
    rw [joinPath, if_neg (joinSep_head_ne '/' '/' (splitSep '.' n) hP hne hslash)]
  constructor
  · rw [fromStr, if_neg (by rw [hstart]; exact Bool.false_ne_true), hrepl, hjp,
      canonicalize_clean fs (splitSep '.' n) e hne hslash hdot hP hres]
  · rw [Mib.name, if_pos (leadSeg_append prefixComps (splitSep '.' n)),
      List.drop_left, replaceChar_joinSep,
      map_id_of (replaceChar '/' '.') (splitSep '.' n)
        (fun c hc => replaceChar_id (hslash c hc)), hjoin]

/-- Witness for C5 at the sample filesystem, on the clean dotted name
`kernel.ostype`. -/
theorem c5_roundtrip_witness :
    fromStr sampleFs (("kernel.ostype").toList)
      = Except.ok (prefixComps ++ splitSep '.' (("kernel.ostype").toList))
    ∧ Mib.name (prefixComps ++ splitSep '.' (("kernel.ostype").toList))
      = Except.ok (("kernel.ostype").toList) :=
  c5_roundtrip sampleFs (("kernel.ostype").toList) (Entry.file ("Linux").toList)
    (by decide) (by decide) (by decide)

/-- Counterexample for C5 as stated: the dotted name `kernel..ostype`
resolves under the root (the empty component collapses during
canonicalization), but the round trip returns `kernel.ostype`, a different
name. -/
theorem c5_counterexample :
    fromStr sampleFs (("kernel..ostype").toList) = Except.ok ostypePath
    ∧ Mib.name ostypePath = Except.ok (("kernel.ostype").toList)
    ∧ (("kernel.ostype").toList : Str) ≠ (("kernel..ostype").toList : Str) := by
  refine ⟨by decide, by decide, by decide⟩

/-- A filesystem holding both the store at `/proc/sys` and an unrelated
file `/etc/hostname`, used to exhibit the prefix-escape bug of
`from_str`. -/
def escapeFs : Entry :=
  Entry.dir [(("proc").toList, Entry.dir [(("sys").toList, sampleStore)]),
    (("etc").toList, Entry.dir [(("hostname").toList, Entry.file ("box").toList)])]

/-- C4 (violation exhibit): the input `/proc/sys/../../etc/hostname`
starts with the prefix string, canonicalizes to `/etc/hostname`, which
exists — `from_str` returns `Ok` with a path that escapes the root prefix
instead of the `NotFound` the claim requires; the code's own
`debug_assert!(path.starts_with(PATH_PREFIX))` (compiled out in release
builds) is violated, so the successfully constructed handle is not a
descendant of the prefix. -/
theorem c4_escape_bug :
    fromStr escapeFs (("/proc/sys/../../etc/hostname").toList)
      = Except.ok [("etc").toList, ("hostname").toList]
    ∧ leadSeg prefixComps [("etc").toList, ("hostname").toList] = false := by
  refine ⟨by decide, by decide⟩

/-- C10 (amended): `from_str` dispatches on whether the input begins with
the prefix string: such inputs are used verbatim (no dot rewriting) and
canonicalized — except those that also end with the prefix string (in
particular the prefix itself), which are rejected with `NotFound` before
any canonicalization; inputs not beginning with the prefix are treated as
dotted names, every `.` replaced by the separator, joined under the
prefix, and canonicalized. -/
theorem c10_dispatch (fs : Entry) (s : Str) :
    (leadSeg prefixStr s = true → trailSeg prefixStr s = true →
        fromStr fs s = Except.error Err.notFound)
    ∧ (leadSeg prefixStr s = true → trailSeg prefixStr s = false →
        fromStr fs s = canonicalize fs s)
    ∧ (leadSeg prefixStr s = false →
        fromStr fs s
          = canonicalize fs (joinPath prefixStr (replaceChar '.' '/' s))) := by
  refine ⟨?_, ?_, ?_⟩
  · intro h1 h2
    rw [fromStr, if_pos h1, if_pos h2]
  · intro h1 h2
    rw [fromStr, if_pos h1, if_neg (by rw [h2]; exact Bool.false_ne_true)]
  · intro h1
    rw [fromStr, if_neg (by rw [h1]; exact Bool.false_ne_true)]

/-- Counterexample for C10 as stated: the raw path input `/proc/sys`
begins with the store prefix, and canonicalizing it verbatim would
succeed, but `from_str` rejects it with `NotFound` without canonicalizing
— the "used as a path verbatim (then canonicalized)" description fails for
it. -/
theorem c10_counterexample :
    fromStr sampleFs prefixStr = Except.error Err.notFound
    ∧ canonicalize sampleFs prefixStr = Except.ok prefixComps
    ∧ fromStr sampleFs prefixStr ≠ canonicalize sampleFs prefixStr := by
  refine ⟨by decide, by decide, by decide⟩

/-- Witness for C10: one concrete input per branch of the dispatch. -/
theorem c10_dispatch_witness :
    fromStr sampleFs (("/proc/sys/kernel").toList)
      = canonicalize sampleFs (("/proc/sys/kernel").toList)
    ∧ fromStr sampleFs prefixStr = Except.error Err.notFound
    ∧ fromStr sampleFs (("kernel.ostype").toList)
      = canonicalize sampleFs
          (joinPath prefixStr (replaceChar '.' '/' (("kernel.ostype").toList))) :=
  ⟨(c10_dispatch sampleFs (("/proc/sys/kernel").toList)).2.1 (by decide) (by decide),
   (c10_dispatch sampleFs prefixStr).1 (by decide) (by decide),
   (c10_dispatch sampleFs (("kernel.ostype").toList)).2.2 (by decide)⟩
